import Mathlib

/-!
# Verification of the metro-network route search program

This file is a shallow embedding, in Lean 4, of the Python program
`IslamPashazade_MetroSimulation.py` together with proofs about it.

Modelling conventions:

* A Python `Station` object is modelled by the structure `Station` below.  Python
  stores *references* to neighbouring `Station` objects; the embedding stores the
  neighbour's `idx` string instead and resolves it through the network's station
  map.  For every network reachable through the public constructors
  (`add_station` / `add_connection`) the two views coincide: station identity in
  Python (object identity) is exactly `idx`-equality because `add_station` never
  creates two stations with the same `idx`.  The well-formedness predicates `WF`
  (station keys are distinct and stored under their own `idx`) and `Closed`
  (every stored neighbour id resolves) make this explicit; both hold for every
  network built through the constructors.
* Python `dict`s preserve insertion order, so they are modelled as association
  lists with `List.find?` lookup.
* Coordinates are modelled as integers (as in the program's own data set;
  they are only consumed by the heuristic).  `Station.distance_to` computes a
  floating point square root; the embedding keeps the *squared* Euclidean
  distance (`hsq`), which is then an integer.  Squaring is strictly monotone on
  non-negative reals, so every comparison (and in particular every tie)
  between heuristic values comes out the same as for the exact real square
  roots; this idealises only the rounding of IEEE floats.
* `heapq` is modelled faithfully after CPython's `heappush`/`heappop`
  (`_siftdown`/`_siftup`), including the fact that comparing two queue tuples
  that agree on `(total_time, heuristic)` falls through to comparing `Station`
  objects, which raises `TypeError` in Python.  The comparison is therefore a
  function into `Except Unit Bool`, and a raised `TypeError` surfaces as
  `Except.error ()`.
* Both searches contain an unbounded `while` loop, so the loops take a fuel
  argument; the outer `Option` is `none` exactly when the fuel runs out, i.e.
  `= some r` for some fuel witnesses termination of the Python loop with
  result `r`.
-/

/-- Model of the Python `Station` class: `idx`, `name`, `line`, coordinates and
the adjacency list of `(neighbour id, travel time)` pairs (`add_neighbor`
appends to it).  Neighbour objects are stored by their `idx`, see the module
docstring. -/
structure Station where
  idx : String
  name : String
  line : String
  x : Int
  y : Int
  neighbors : List (String × Int)
deriving DecidableEq, Repr

instance : Inhabited Station := ⟨⟨"", "", "", 0, 0, []⟩⟩

/-- Model of the Python `MetroNetwork` class.  `stations` models the
insertion-ordered dict `self.stations` (the key of each entry is the station's
`idx`); `lines` models the bookkeeping `defaultdict` `self.lines`, storing
station ids per line label. -/
structure MetroNetwork where
  stations : List Station
  lines : List (String × List String)
deriving DecidableEq, Repr

/-- Lookup `self.stations[id]`: the station stored under key `id`. -/
def MetroNetwork.getStation (net : MetroNetwork) (id : String) : Option Station :=
  net.stations.find? (fun s => s.idx = id)

/-- Append `id` to the `defaultdict(list)` entry of `line` (model of
`self.lines[line].append(station)`). -/
def addToLine (lines : List (String × List String)) (line id : String) :
    List (String × List String) :=
  if (lines.find? (fun p => p.1 = line)).isSome then
    lines.map (fun p => if p.1 = line then (p.1, p.2 ++ [id]) else p)
  else
    lines ++ [(line, [id])]

/-- Model of `MetroNetwork.add_station`: inserts a fresh station unless the id
is already present (silent no-op on duplicates). -/
def MetroNetwork.add_station (net : MetroNetwork) (idx name line : String)
    (x y : Int) : MetroNetwork :=
  if (net.getStation idx).isSome then net
  else
    { stations := net.stations ++ [⟨idx, name, line, x, y, []⟩]
      lines := addToLine net.lines line idx }

/-- Append `(nid, t)` to the neighbour list of the station stored under `sid`
(model of `station.add_neighbor(other, time)` through the station map). -/
def addNeighbor (net : MetroNetwork) (sid nid : String) (t : Int) : MetroNetwork :=
  { net with
    stations := net.stations.map
      (fun s => if s.idx = sid then { s with neighbors := s.neighbors ++ [(nid, t)] } else s) }

/-- Model of `MetroNetwork.add_connection`: looks both stations up; on success
appends the two mirror adjacency entries, on a `KeyError` the handler prints a
message and the network is left unchanged (no exception escapes). -/
def MetroNetwork.add_connection (net : MetroNetwork) (id1 id2 : String) (t : Int) :
    MetroNetwork :=
  match net.getStation id1, net.getStation id2 with
  | some _, some _ => addNeighbor (addNeighbor net id1 id2 t) id2 id1 t
  | _, _ => net

/-- Station keys are pairwise distinct.  Holds for every network built through
`add_station` (Python guarantees it because dict keys are unique and
`add_station` stores each station under its own `idx`). -/
def MetroNetwork.WF (net : MetroNetwork) : Prop :=
  (net.stations.map Station.idx).Nodup

/-- Every stored neighbour id resolves to a station of the network.  In Python
this is automatic: adjacency lists hold references to `Station` objects that
live in `self.stations`. -/
def MetroNetwork.Closed (net : MetroNetwork) : Prop :=
  ∀ s ∈ net.stations, ∀ nb ∈ s.neighbors, (net.getStation nb.1).isSome

/-- All edge weights of the network are non-negative. -/
def MetroNetwork.NonNeg (net : MetroNetwork) : Prop :=
  ∀ s ∈ net.stations, ∀ nb ∈ s.neighbors, (0 : Int) ≤ nb.2

instance (net : MetroNetwork) : Decidable net.WF := by
  unfold MetroNetwork.WF; infer_instance

instance (net : MetroNetwork) : Decidable net.Closed := by
  unfold MetroNetwork.Closed; infer_instance

instance (net : MetroNetwork) : Decidable net.NonNeg := by
  unfold MetroNetwork.NonNeg; infer_instance

/-! ## Breadth-first search: `find_least_transfers` -/

/-- One pass of the Python `for neighbor, _ in current_station.neighbors` loop:
unvisited neighbours are marked visited and appended to the BFS queue together
with their extended path.  Neighbour ids are resolved through the station map
(always successful on `Closed` networks; the `none` branch is unreachable in
Python, where the object reference itself is stored). -/
def enqueueNbrs (net : MetroNetwork) (path : List Station) :
    List (String × Int) → List (Station × List Station) → List Station →
    List (Station × List Station) × List Station
  | [], q, vis => (q, vis)
  | (nid, _) :: rest, q, vis =>
    match net.getStation nid with
    | none => enqueueNbrs net path rest q vis
    | some nb =>
      if nb ∈ vis then enqueueNbrs net path rest q vis
      else enqueueNbrs net path rest (q ++ [(nb, path ++ [nb])]) (vis ++ [nb])

/-- The `while queue:` loop of `find_least_transfers`.  The queue holds
`(station, path so far)` pairs; `vis` is the `visited` set, kept as a list in
insertion order.  The outer `Option` is the fuel: `none` means the fuel ran
out, `some r` means the Python loop finished with result `r`. -/
def ltLoop (net : MetroNetwork) (target : Station) :
    List (Station × List Station) → List Station → Nat → Option (Option (List Station))
  | _, _, 0 => none
  | [], _, _ + 1 => some none
  | (cur, path) :: rest, vis, fuel + 1 =>
    if cur = target then some (some path)
    else
      let step := enqueueNbrs net path cur.neighbors rest vis
      ltLoop net target step.1 step.2 fuel

/-- Model of `MetroNetwork.find_least_transfers`.  Python returns `None` both
when an id is missing (after printing an error) and when the BFS exhausts the
queue; the returned value is `none` in both cases. -/
def MetroNetwork.find_least_transfers (net : MetroNetwork) (startId targetId : String)
    (fuel : Nat) : Option (Option (List Station)) :=
  match net.getStation startId, net.getStation targetId with
  | some s, some t => ltLoop net t [(s, [s])] [] fuel
  | _, _ => some none

/-- Variant of `ltLoop` that also reports the final `visited` list.  The
stations marked visited, in order, are exactly the stations enqueued by the
`for` loop (each is appended to `visited` at the moment it is enqueued), so
`start :: vis` is the full sequence of enqueue events of the search. -/
def ltLoopTrace (net : MetroNetwork) (target : Station) :
    List (Station × List Station) → List Station → Nat →
    Option (Option (List Station) × List Station)
  | _, _, 0 => none
  | [], vis, _ + 1 => some (none, vis)
  | (cur, path) :: rest, vis, fuel + 1 =>
    if cur = target then some (some path, vis)
    else
      let step := enqueueNbrs net path cur.neighbors rest vis
      ltLoopTrace net target step.1 step.2 fuel

/-- `find_least_transfers` instrumented with the final visited list. -/
def MetroNetwork.ltTrace (net : MetroNetwork) (startId targetId : String)
    (fuel : Nat) : Option (Option (List Station) × List Station) :=
  match net.getStation startId, net.getStation targetId with
  | some s, some t => ltLoopTrace net t [(s, [s])] [] fuel
  | _, _ => some (none, [])

/-! ## The priority queue: CPython's `heapq` over the program's 4-tuples -/

/-- A queue entry of `find_fastest_route`:
`(total_time, heuristic, current_station, path)`.  The `h` component stores the
squared Euclidean distance (see the module docstring). -/
structure QEntry where
  time : Int
  h : Int
  st : Station
  path : List Station
deriving DecidableEq, Repr

instance : Inhabited QEntry := ⟨⟨0, 0, default, []⟩⟩

/-- Squared Euclidean distance, the embedding of `Station.distance_to` (which
returns the float square root; squaring preserves every comparison between
non-negative values). -/
def hsq (a b : Station) : Int :=
  (a.x - b.x) ^ 2 + (a.y - b.y) ^ 2

/-- The sort key of a queue tuple that Python's tuple comparison actually
decides: the `(total_time, heuristic)` prefix. -/
def qkey (e : QEntry) : Int × Int := (e.time, e.h)

/-- Strict lexicographic order on queue keys. -/
def keyLt (a b : Int × Int) : Prop := a.1 < b.1 ∨ (a.1 = b.1 ∧ a.2 < b.2)

/-- Lexicographic order on queue keys. -/
def keyLe (a b : Int × Int) : Prop := a.1 < b.1 ∨ (a.1 = b.1 ∧ a.2 ≤ b.2)

instance (a b : Int × Int) : Decidable (keyLt a b) := by unfold keyLt; infer_instance

instance (a b : Int × Int) : Decidable (keyLe a b) := by unfold keyLe; infer_instance

/-- Comparison of two queue tuples as Python evaluates `a < b`: the totally
ordered `(time, heuristic)` prefix decides whenever it differs; when it ties,
Python compares the `Station` components, which raises `TypeError` (`Station`
defines no ordering) — modelled as `Except.error ()`. -/
def entLtE (a b : QEntry) : Except Unit Bool :=
  if qkey a = qkey b then Except.error ()
  else Except.ok (decide (keyLt (qkey a) (qkey b)))

/-- Total comparison used by the idealised (never-raising) heap: ties simply
report "not less".  Every run of the `entLtE` heap that raises no error
computes exactly as this one. -/
def entLtT (a b : QEntry) : Except Unit Bool :=
  Except.ok (decide (keyLt (qkey a) (qkey b)))

/-- Read `heap[i]` (callers only use in-range indices). -/
def hget (heap : List QEntry) (i : Nat) : QEntry :=
  heap.getD i default

/-- The loop of CPython `heapq._siftdown(heap, 0, pos)`: bubble the new item
at `pos` towards the root, shifting larger parents down.  The item `x`
conceptually occupies position `pos`; array cells are ignored at the hole and
written on exit.  The extra `gas` argument only makes the recursion structural
(the position at least halves every iteration, so running the loop with
`gas = pos` never reaches the `gas = 0` fallback; see `siftdownLoop_gas_irrel`). -/
def siftdownLoop (cmp : QEntry → QEntry → Except Unit Bool) (x : QEntry) :
    List QEntry → Nat → Nat → Except Unit (List QEntry)
  | heap, 0, _ => Except.ok (heap.set 0 x)
  | heap, pos + 1, 0 => Except.ok (heap.set (pos + 1) x)
  | heap, pos + 1, gas + 1 =>
    match cmp x (hget heap (pos / 2)) with
    | Except.error e => Except.error e
    | Except.ok b =>
      if b then siftdownLoop cmp x (heap.set (pos + 1) (hget heap (pos / 2))) (pos / 2) gas
      else Except.ok (heap.set (pos + 1) x)

/-- CPython `heapq._siftdown(heap, 0, pos)`. -/
def siftdown (cmp : QEntry → QEntry → Except Unit Bool) (x : QEntry)
    (heap : List QEntry) (pos : Nat) : Except Unit (List QEntry) :=
  siftdownLoop cmp x heap pos pos

/-- The loop of CPython `heapq._siftup(heap, pos)` (with `startpos = 0`): move
the hole at `pos` down to a leaf along the smaller children, then place `x`
there and bubble it up with `siftdown`.  As in `siftdownLoop`, `gas` only makes
the recursion structural: the position strictly increases and stays below the
length, so with `gas = heap.length` the `gas = 0` fallback (which behaves like
the loop exit) is semantically irrelevant (see `siftupLoop_gas_irrel`). -/
def siftupLoop (cmp : QEntry → QEntry → Except Unit Bool) (x : QEntry) :
    List QEntry → Nat → Nat → Except Unit (List QEntry)
  | heap, pos, 0 => siftdown cmp x heap pos
  | heap, pos, gas + 1 =>
    if 2 * pos + 1 < heap.length then
      if 2 * pos + 2 < heap.length then
        match cmp (hget heap (2 * pos + 1)) (hget heap (2 * pos + 2)) with
        | Except.error e => Except.error e
        | Except.ok b =>
          let c := if b then 2 * pos + 1 else 2 * pos + 2
          siftupLoop cmp x (heap.set pos (hget heap c)) c gas
      else
        siftupLoop cmp x (heap.set pos (hget heap (2 * pos + 1))) (2 * pos + 1) gas
    else siftdown cmp x heap pos

/-- CPython `heapq._siftup(heap, pos)` (with `startpos = 0`). -/
def siftup (cmp : QEntry → QEntry → Except Unit Bool) (x : QEntry)
    (heap : List QEntry) (pos : Nat) : Except Unit (List QEntry) :=
  siftupLoop cmp x heap pos heap.length

/-- CPython `heapq.heappush`. -/
def heappush (cmp : QEntry → QEntry → Except Unit Bool) (heap : List QEntry)
    (item : QEntry) : Except Unit (List QEntry) :=
  siftdown cmp item (heap ++ [item]) heap.length

/-- CPython `heapq.heappop`: remove the last element; if the heap is still
non-empty, save the root as the return value, move the last element into the
root hole and sift it up.  Returns `none` on an empty heap (the Python loop
guard prevents that case). -/
def heappop (cmp : QEntry → QEntry → Except Unit Bool) (heap : List QEntry) :
    Except Unit (Option (QEntry × List QEntry)) :=
  match heap.getLast?, heap.dropLast with
  | none, _ => Except.ok none
  | some last, [] => Except.ok (some (last, []))
  | some last, r0 :: rest =>
    match siftup cmp last (r0 :: rest) 0 with
    | Except.error e => Except.error e
    | Except.ok h2 => Except.ok (some (r0, h2))

/-! ## Weighted search: `find_fastest_route` -/

/-- Lookup in the `shortest_time` dict, keyed by station (Python keys the dict
by the `Station` object; on well-formed networks structural equality of the
embedded stations coincides with Python's object identity). -/
def dlookup (st : List (Station × Int)) (s : Station) : Option Int :=
  (st.find? (fun p => p.1 = s)).map (fun p => p.2)

/-- Dict assignment `shortest_time[s] = v`: replace the existing binding or
append a new one (Python dicts keep insertion order). -/
def dinsert (st : List (Station × Int)) (s : Station) (v : Int) :
    List (Station × Int) :=
  if (st.find? (fun p => p.1 = s)).isSome then
    st.map (fun p => if p.1 = s then (p.1, v) else p)
  else st ++ [(s, v)]

/-- The `for neighbor, time in current_station.neighbors` loop of
`find_fastest_route`: relax each neighbour, and on strict improvement record
the new best time and push `(new_time, heuristic, neighbor, path + [neighbor])`
(a raising push aborts the whole call, as the uncaught `TypeError` would). -/
def relaxAll (net : MetroNetwork) (target : Station) (ctime : Int)
    (path : List Station) :
    List (String × Int) → List QEntry → List (Station × Int) →
    Except Unit (List QEntry × List (Station × Int))
  | [], pq, st => Except.ok (pq, st)
  | (nid, w) :: rest, pq, st =>
    match net.getStation nid with
    | none => relaxAll net target ctime path rest pq st
    | some nb =>
      let newTime := ctime + w
      let doPush : Bool :=
        match dlookup st nb with
        | none => true
        | some old => decide (newTime < old)
      if doPush then
        match heappush entLtE pq ⟨newTime, hsq nb target, nb, path ++ [nb]⟩ with
        | Except.error e => Except.error e
        | Except.ok pq2 =>
          relaxAll net target ctime path rest pq2 (dinsert st nb newTime)
      else relaxAll net target ctime path rest pq st

/-- The `while pq:` loop of `find_fastest_route`.  `none` is exhausted fuel;
`some (Except.error ())` is an escaped `TypeError` from a heap comparison;
`some (Except.ok r)` is a normal return. -/
def frLoop (net : MetroNetwork) (target : Station) :
    List QEntry → List (Station × Int) → Nat →
    Option (Except Unit (Option (List Station × Int)))
  | _, _, 0 => none
  | [], _, _ + 1 => some (Except.ok none)
  | pq@(_ :: _), st, fuel + 1 =>
    match heappop entLtE pq with
    | Except.error e => some (Except.error e)
    | Except.ok none => some (Except.ok none)
    | Except.ok (some (e, pq1)) =>
      if e.st = target then some (Except.ok (some (e.path, e.time)))
      else
        match relaxAll net target e.time e.path e.st.neighbors pq1 st with
        | Except.error er => some (Except.error er)
        | Except.ok (pq2, st2) => frLoop net target pq2 st2 fuel

/-- Model of `MetroNetwork.find_fastest_route`.  The initial queue holds
`(0, 0, start, [start])` and `shortest_time = {start: 0}`.  A missing id
returns `None` (printed error), exactly as the no-path outcome does. -/
def MetroNetwork.find_fastest_route (net : MetroNetwork) (startId targetId : String)
    (fuel : Nat) : Option (Except Unit (Option (List Station × Int))) :=
  match net.getStation startId, net.getStation targetId with
  | some s, some t => frLoop net t [⟨0, 0, s, [s]⟩] [(s, 0)] fuel
  | _, _ => some (Except.ok none)

/-! ## Walks in a network -/

/-- Equality of `Except` values is decidable (needed to evaluate concrete runs
of `find_fastest_route`). -/
def exceptDecEq {ε α : Type} [DecidableEq ε] [DecidableEq α] :
    (a b : Except ε α) → Decidable (a = b)
  | Except.error e, Except.error f =>
    if h : e = f then isTrue (congrArg Except.error h)
    else isFalse (fun hh => h (Except.error.inj hh))
  | Except.error _, Except.ok _ => isFalse (fun hh => Except.noConfusion hh)
  | Except.ok _, Except.error _ => isFalse (fun hh => Except.noConfusion hh)
  | Except.ok a, Except.ok b =>
    if h : a = b then isTrue (congrArg Except.ok h)
    else isFalse (fun hh => h (Except.ok.inj hh))

instance {ε α : Type} [DecidableEq ε] [DecidableEq α] : DecidableEq (Except ε α) :=
  exceptDecEq

/-- `Seg net b q d w`: starting at station `b`, the list `q` of successive
stations is a walk ending at `d` whose traversed edge weights sum to `w`.
Each step follows one adjacency entry of the current station, and the next
station is the one the network stores for that id (in Python, the reference
stored in the adjacency list itself). -/
inductive Seg (net : MetroNetwork) : Station → List Station → Station → Int → Prop
  | nil (b : Station) : Seg net b [] b 0
  | cons {b c d : Station} {q : List Station} {w v : Int} :
      (c.idx, w) ∈ b.neighbors → net.getStation c.idx = some c →
      Seg net c q d v → Seg net b (c :: q) d (w + v)

/-- `p` is a start-to-`v` path (inclusive of both endpoints, as returned by the
searches) realising total weight `t`. -/
def RouteTo (net : MetroNetwork) (sa v : Station) (p : List Station) (t : Int) : Prop :=
  ∃ q, p = sa :: q ∧ Seg net sa q v t

/-- `b` is reachable from `a` by some walk. -/
def Reachable (net : MetroNetwork) (a b : Station) : Prop :=
  ∃ q w, Seg net a q b w

/-! ## Fixture networks used in concrete runs -/

/-- Two stations, no edges: `"A"` and `"B"` lie in different components. -/
def netDisc : MetroNetwork :=
  let n : MetroNetwork := ⟨[], []⟩
  let n := n.add_station "A" "A" "L" 0 0
  let n := n.add_station "B" "B" "L" 0 0
  n

/-- Line `A — B` plus the isolated station `C` (so a search from `"A"` to
`"C"` exhausts the queue). -/
def netLine : MetroNetwork :=
  let n : MetroNetwork := ⟨[], []⟩
  let n := n.add_station "A" "A" "L" 0 0
  let n := n.add_station "B" "B" "L" 0 0
  let n := n.add_station "C" "C" "L" 0 0
  let n := n.add_connection "A" "B" 1
  n

/-- The station value stored for `"A"` in `netLine`. -/
def lineA : Station := ⟨"A", "A", "L", 0, 0, [("B", 1)]⟩

/-- The station value stored for `"B"` in `netLine`. -/
def lineB : Station := ⟨"B", "B", "L", 0, 0, [("A", 1)]⟩

/-- `S` with two unit edges to `A` and `B`, which sit at the same coordinates
(equal heuristic distance to `T`), plus an edge `A — T`: relaxing `B` pushes a
queue tuple that ties with `A`'s on `(total_time, heuristic)`. -/
def netTie : MetroNetwork :=
  let n : MetroNetwork := ⟨[], []⟩
  let n := n.add_station "S" "S" "L" 0 0
  let n := n.add_station "A" "A" "L" 1 0
  let n := n.add_station "B" "B" "L" 1 0
  let n := n.add_station "T" "T" "L" 2 0
  let n := n.add_connection "S" "A" 1
  let n := n.add_connection "S" "B" 1
  let n := n.add_connection "A" "T" 1
  n

/-- The station value stored for `"S"` in `netTie`. -/
def tieS : Station := ⟨"S", "S", "L", 0, 0, [("A", 1), ("B", 1)]⟩

/-- The station value stored for `"A"` in `netTie`. -/
def tieA : Station := ⟨"A", "A", "L", 1, 0, [("S", 1), ("T", 1)]⟩

/-- The station value stored for `"T"` in `netTie`. -/
def tieT : Station := ⟨"T", "T", "L", 2, 0, [("A", 1)]⟩

/-- `S` with edges to `A` (weight 1), and to `B` and `C` (weight 5 each, `B`
and `C` at equal coordinates), plus an isolated `T`.  The first iteration
builds the three-element heap `[A-entry, B-entry, C-entry]` without ever
comparing the tied `B`/`C` tuples; the second iteration's *pop* then compares
them and fails. -/
def netPopTie : MetroNetwork :=
  let n : MetroNetwork := ⟨[], []⟩
  let n := n.add_station "S" "S" "L" 0 0
  let n := n.add_station "A" "A" "L" 2 0
  let n := n.add_station "B" "B" "L" 1 0
  let n := n.add_station "C" "C" "L" 1 0
  let n := n.add_station "T" "T" "L" 0 5
  let n := n.add_connection "S" "A" 1
  let n := n.add_connection "S" "B" 5
  let n := n.add_connection "S" "C" 5
  n

/-- A single station with a self-loop of weight `-1`, plus an isolated target
`C`: every iteration of the weighted search strictly improves
`shortest_time["A"]` and re-pushes one entry, forever. -/
def netNegLoop : MetroNetwork :=
  let n : MetroNetwork := ⟨[], []⟩
  let n := n.add_station "A" "A" "L" 0 0
  let n := n.add_station "C" "C" "L" 0 0
  let n := n.add_connection "A" "A" (-1)
  n

/-- The station value stored for `"A"` in `netNegLoop` (the self-loop was
appended twice, once per direction, exactly as `add_connection` does). -/
def negA : Station := ⟨"A", "A", "L", 0, 0, [("A", -1), ("A", -1)]⟩

/-- The station value stored for `"C"` in `netNegLoop`. -/
def negC : Station := ⟨"C", "C", "L", 0, 0, []⟩

/-- A construction step: one call of `add_station` or `add_connection`. -/
inductive BuildOp where
  | station (idx name line : String) (x y : Int)
  | connection (id1 id2 : String) (t : Int)

/-- Run one construction step. -/
def applyOp (net : MetroNetwork) : BuildOp → MetroNetwork
  | BuildOp.station i n l x y => net.add_station i n l x y
  | BuildOp.connection a b t => net.add_connection a b t

/-- The network built from an empty `MetroNetwork()` by a sequence of
construction calls. -/
def buildNet (ops : List BuildOp) : MetroNetwork :=
  ops.foldl applyOp ⟨[], []⟩

/-- Every adjacency entry `(s, (n, w))` has a mirror entry `(n, (s, w))`:
some station of the network is stored under id `n` up to `idx`-equality and
lists `(s.idx, w)` among its neighbours. -/
def Mirror (net : MetroNetwork) : Prop :=
  ∀ s ∈ net.stations, ∀ nb ∈ s.neighbors,
    ∃ s2 ∈ net.stations, s2.idx = nb.1 ∧ (s.idx, nb.2) ∈ s2.neighbors

/-- Every queue entry of the weighted search carries a start-rooted path
ending at its station whose traversed edge weights sum to its `time` field. -/
def EntriesOK (net : MetroNetwork) (sa : Station) (pq : List QEntry) : Prop :=
  ∀ e ∈ pq, RouteTo net sa e.st e.path e.time

/-- The binary-heap invariant maintained by `heapq`: every element is at
least its parent with respect to the lexicographic `(total_time, heuristic)`
key order (the order Python's tuple comparison decides whenever it does not
raise). -/
def IsHeap (h : List QEntry) : Prop :=
  ∀ i : Nat, 0 < i → i < h.length →
    keyLe (qkey (hget h ((i - 1) / 2))) (qkey (hget h i))

/-- The loop invariant of the breadth-first search, with ghost state `P`: the
stations popped and expanded so far.  `queue` and `vis` are the live state.
The fields follow the run: every queued entry carries a valid start-rooted
path (`entries_route`) of minimal hop count for its station
(`entries_min`, except for the start's entries, see `entries_start`); path
lengths along the queue are non-decreasing and spread over at most two
consecutive values (`sorted`, `spread`); every station reachable within the
front entry's level has been discovered (`frontier`); every discovered
station is expanded or queued (`discovered`); expanded stations have all
their neighbours discovered (`expanded`); the target has never been expanded
(`target_new`); and after the very first iteration the start is expanded
(`start_done`). -/
structure BfsInv (net : MetroNetwork) (sa tg : Station) (P : List Station)
    (queue : List (Station × List Station)) (vis : List Station) : Prop where
  entries_route : ∀ e ∈ queue, ∃ q t, e.2 = sa :: q ∧ Seg net sa q e.1 t
  entries_min : ∀ e ∈ queue, e.1 ≠ sa →
    ∀ (q : List Station) (t : Int), Seg net sa q e.1 t → e.2.length ≤ q.length + 1
  entries_start : ∀ e ∈ queue, e.1 = sa → e.2 = [sa] ∨ sa ∈ vis
  sorted : List.Sorted (· ≤ ·) (queue.map (fun e => e.2.length))
  spread : ∀ e0 ∈ queue.head?, ∀ e ∈ queue, e.2.length ≤ e0.2.length + 1
  frontier : ∀ e0 ∈ queue.head?, ∀ (w : Station) (q : List Station) (t : Int),
    Seg net sa q w t → q.length + 1 ≤ e0.2.length → w ∈ vis ∨ w = sa
  discovered : ∀ w : Station, w ∈ vis ∨ w = sa → w ∈ P ∨ ∃ p, (w, p) ∈ queue
  expanded : ∀ u ∈ P, ∀ nb ∈ u.neighbors, ∀ st : Station,
    net.getStation nb.1 = some st → st ∈ vis
  target_new : tg ∉ P
  start_done : queue ≠ [] → (queue = [(sa, [sa])] ∧ P = [] ∧ vis = []) ∨ sa ∈ P
  vis_nodup : vis.Nodup
  vis_mem : ∀ v ∈ vis, v ∈ net.stations

/-- Total `toNat` mass of the `shortest_time` dict: the termination measure
component that strictly drops whenever a label improves (labels realised by
walks are non-negative on `NonNeg` networks, so `toNat` loses nothing). -/
def stW (st : List (Station × Int)) : Nat :=
  (st.map (fun sd => sd.2.toNat)).sum

/-- The loop invariant of the weighted search.  `pq` is the heap, `st` the
`shortest_time` dict.  Every heap entry carries a genuine walk from the start
realising its time (`q_sound`); every recorded label is realised by a walk
(`st_sound`) and lower-bounds every heap entry for its station (`entry_lab`
gives each entry a label at most its time); dict keys are distinct stations
of the network (`st_nodup`, `st_mem`); the heap invariant holds (`heap`); the
start is labelled at most `0` (`start_lab`); every labelled station either
still has a pending heap entry no worse than its label or has had all its
neighbours relaxed against its label (`relaxed`); and the target, which would
end the loop when popped, always keeps a pending entry no worse than its
label (`tg_pending`). -/
structure DijkInv (net : MetroNetwork) (sa tg : Station) (pq : List QEntry)
    (st : List (Station × Int)) : Prop where
  q_sound : ∀ en ∈ pq, ∃ q, en.path = sa :: q ∧ Seg net sa q en.st en.time
  st_sound : ∀ (z : Station) (d : Int), dlookup st z = some d → ∃ q, Seg net sa q z d
  st_nodup : (st.map Prod.fst).Nodup
  st_mem : ∀ sd ∈ st, sd.1 ∈ net.stations
  entry_lab : ∀ en ∈ pq, ∃ d, dlookup st en.st = some d ∧ d ≤ en.time
  heap : IsHeap pq
  start_lab : ∃ d, dlookup st sa = some d ∧ d ≤ 0
  relaxed : ∀ (z : Station) (d : Int), dlookup st z = some d →
    (∃ en ∈ pq, en.st = z ∧ en.time ≤ d) ∨
    (∀ nw ∈ z.neighbors, ∀ nb : Station, net.getStation nw.1 = some nb →
      ∃ d2, dlookup st nb = some d2 ∧ d2 ≤ d + nw.2)
  tg_pending : ∀ d : Int, dlookup st tg = some d → ∃ en ∈ pq, en.st = tg ∧ en.time ≤ d

/-! ## Theorems -/

/-- Appending one more edge to the end of a walk. -/
theorem Seg.snoc {net : MetroNetwork} {b c d : Station} {q : List Station}
    {w wd : Int} (hs : Seg net b q c w) (he : (d.idx, wd) ∈ c.neighbors)
    (hd : net.getStation d.idx = some d) : Seg net b (q ++ [d]) d (w + wd) := by
  induction hs with
  | nil b => simpa using Seg.cons he hd (Seg.nil d)
  | cons h1 h2 _ ih => simpa [add_assoc] using Seg.cons h1 h2 (ih he)

/-! ## Claim C10: `add_connection` with a missing endpoint -/

/-- Claim C10: if `add_connection` is called with at least one endpoint id
absent from the network, the `KeyError` is raised before any `add_neighbor`
call, the handler swallows it, and the network is left completely unchanged. -/
theorem C10_add_connection_missing_noop (net : MetroNetwork) (id1 id2 : String)
    (t : Int) (h : net.getStation id1 = none ∨ net.getStation id2 = none) :
    net.add_connection id1 id2 t = net := by
  unfold MetroNetwork.add_connection
  rcases h with h | h
  · rw [h]
  · rw [h]
    cases net.getStation id1 <;> rfl

/-- Witness for C10 at a concrete input: `"Z"` is absent from `netDisc`, so
connecting `"A"` to `"Z"` leaves the network unchanged. -/
theorem C10_add_connection_missing_noop_witness :
    netDisc.getStation "Z" = none ∧ netDisc.add_connection "A" "Z" 3 = netDisc :=
  ⟨by decide, C10_add_connection_missing_noop netDisc "A" "Z" 3 (Or.inr (by decide))⟩

/-! ## Claim C8: searching from a stop to itself -/

/-- `heappop` on a one-element heap returns that element without comparing
anything. -/
theorem heappop_singleton (cmp : QEntry → QEntry → Except Unit Bool) (e : QEntry) :
    heappop cmp [e] = Except.ok (some (e, [])) := rfl

/-- Claim C8: for every stop `s` present in the network, both searches return
the single-stop path `[s]` immediately (the weighted one with total `0`),
whatever fuel remains. -/
theorem C8_self_query (net : MetroNetwork) (sId : String) (s : Station)
    (hs : net.getStation sId = some s) (fuel : Nat) :
    net.find_least_transfers sId sId (fuel + 1) = some (some [s]) ∧
    net.find_fastest_route sId sId (fuel + 1) = some (Except.ok (some ([s], 0))) := by
  constructor
  · unfold MetroNetwork.find_least_transfers
    rw [hs]
    simp [ltLoop]
  · unfold MetroNetwork.find_fastest_route
    rw [hs]
    simp [frLoop, heappop_singleton]

/-- Witness for C8 on `netDisc` at stop `"A"`. -/
theorem C8_self_query_witness :
    netDisc.getStation "A" = some ⟨"A", "A", "L", 0, 0, []⟩ ∧
    netDisc.find_least_transfers "A" "A" 3 = some (some [⟨"A", "A", "L", 0, 0, []⟩]) ∧
    netDisc.find_fastest_route "A" "A" 3 =
      some (Except.ok (some ([⟨"A", "A", "L", 0, 0, []⟩], 0))) := by
  refine ⟨by decide, ?_, ?_⟩
  · exact (C8_self_query netDisc "A" _ (by decide) 2).1
  · exact (C8_self_query netDisc "A" _ (by decide) 2).2

/-! ## Claim C3: the two failure outcomes are the same value -/

/-- Counterexample to claim C3: on `netDisc`, the no-path outcome for the valid
pair `("A", "B")` and the missing-id outcome for `("ZZZ", "A")` are the *same*
returned value (`None`), for both search operations — the printed error message
is the only difference, so the caller cannot distinguish them. -/
theorem C3_counterexample :
    netDisc.find_least_transfers "A" "B" 5 = some none ∧
    netDisc.find_least_transfers "ZZZ" "A" 5 = some none ∧
    netDisc.find_fastest_route "A" "B" 5 = some (Except.ok none) ∧
    netDisc.find_fastest_route "ZZZ" "A" 5 = some (Except.ok none) := by
  refine ⟨by decide, by decide, by decide, by decide⟩

/-- Claim C3 as amended: whenever the start or target id is absent, both
searches return plain `None` — the very value also returned in the no-path
case (exhibited on `netDisc`, where `"A"` and `"B"` are valid but
disconnected). -/
theorem C3_amended_failures_indistinguishable :
    (∀ (net : MetroNetwork) (a b : String) (fuel : Nat),
        net.getStation a = none ∨ net.getStation b = none →
        net.find_least_transfers a b fuel = some none ∧
        net.find_fastest_route a b fuel = some (Except.ok none)) ∧
    netDisc.find_least_transfers "A" "B" 5 = some none ∧
    netDisc.find_fastest_route "A" "B" 5 = some (Except.ok none) := by
  refine ⟨fun net a b fuel h => ⟨?_, ?_⟩, by decide, by decide⟩
  · unfold MetroNetwork.find_least_transfers
    rcases h with h | h
    · rw [h]
    · rw [h]; cases net.getStation a <;> rfl
  · unfold MetroNetwork.find_fastest_route
    rcases h with h | h
    · rw [h]
    · rw [h]; cases net.getStation a <;> rfl

/-- Witness for the amended C3 at a concrete missing id. -/
theorem C3_amended_failures_indistinguishable_witness :
    netDisc.getStation "ZZZ" = none ∧
    netDisc.find_least_transfers "ZZZ" "A" 5 = some none ∧
    netDisc.find_fastest_route "ZZZ" "A" 5 = some (Except.ok none) :=
  ⟨by decide,
    (C3_amended_failures_indistinguishable.1 netDisc "ZZZ" "A" 5 (Or.inl (by decide))).1,
    (C3_amended_failures_indistinguishable.1 netDisc "ZZZ" "A" 5 (Or.inl (by decide))).2⟩

/-! ## Counterexamples: heap comparisons can raise -/

/-- Counterexample to claim C1: on `netTie` all weights are non-negative and
`"T"` is reachable from `"S"`, yet `find_fastest_route "S" "T"` does not
return a pair at all — pushing the `B`-entry compares it against the tied
`A`-entry `(1, heuristic 1)` and the comparison falls through to the
`Station` objects, raising `TypeError` (`some (Except.error ())` already with
fuel for a single iteration). -/
theorem C1_counterexample :
    netTie.NonNeg ∧
    netTie.getStation "S" = some tieS ∧
    netTie.getStation "T" = some tieT ∧
    Reachable netTie tieS tieT ∧
    netTie.find_fastest_route "S" "T" 1 = some (Except.error ()) := by
  refine ⟨by decide, by decide, by decide, ?_, by decide⟩
  exact ⟨[tieA, tieT], 1 + (1 + 0),
    @Seg.cons netTie tieS tieA tieT [tieT] 1 (1 + 0) (by decide) (by decide)
      (@Seg.cons netTie tieA tieT tieT [] 1 0 (by decide) (by decide) (Seg.nil tieT))⟩

/-- Counterexample to claim C4: on `netPopTie` the first iteration succeeds
(fuel 1 is exhausted after it), but the second iteration's `heappop` compares
the two queue entries that tie on `(total_time, heuristic)` and fails with
`TypeError` instead of falling back to insertion order — popping is not total. -/
theorem C4_counterexample :
    netPopTie.find_fastest_route "S" "T" 1 = none ∧
    netPopTie.find_fastest_route "S" "T" 2 = some (Except.error ()) := by
  exact ⟨by decide, by decide⟩

/-! ## Claim C6: enqueue-time visit marking -/

/-- Counterexample to claim C6: searching `netLine` from `"A"` to the isolated
`"C"`, the enqueue sequence (initial stop followed by the final `visited` list
in insertion order) is `A, B, A` — the start stop is *not* marked visited when
it is first enqueued, and it is enqueued a second time when `B` is expanded. -/
theorem C6_counterexample :
    netLine.ltTrace "A" "C" 10 = some (none, [lineB, lineA]) ∧
    netLine.getStation "A" = some lineA ∧
    (lineA :: [lineB, lineA]).count lineA = 2 := by
  exact ⟨by decide, by decide, by decide⟩

/-! ## Basic facts about lookups and dict operations -/

/-- A successful `getStation` returns a member of the station list stored
under its own `idx`. -/
theorem getStation_mem {net : MetroNetwork} {id : String} {s : Station}
    (h : net.getStation id = some s) : s ∈ net.stations ∧ s.idx = id := by
  unfold MetroNetwork.getStation at h
  refine ⟨List.mem_of_find?_eq_some h, ?_⟩
  have := List.find?_some h
  simpa using this

/-- Pushing onto an empty heap performs no comparison. -/
theorem heappush_nil (cmp : QEntry → QEntry → Except Unit Bool) (x : QEntry) :
    heappush cmp [] x = Except.ok [x] := rfl

/-- Looking up the head key of the `shortest_time` dict. -/
theorem dlookup_cons_self (s : Station) (v : Int) (rest : List (Station × Int)) :
    dlookup ((s, v) :: rest) s = some v := by
  simp [dlookup, List.find?]

/-- Overwriting the single binding of a one-entry dict. -/
theorem dinsert_single (s : Station) (v w : Int) :
    dinsert [(s, v)] s w = [(s, w)] := by
  simp [dinsert, List.find?]

/-! ## Claim C5, counterexample: a negative self-loop runs forever -/

/-- On `netNegLoop`, from any state whose queue holds the single entry
`(c, 0, A, p)` with `shortest_time = {A: c}`, one loop iteration of the
weighted search reaches the same shape of state with `c - 1`; the loop
therefore consumes any amount of fuel without returning. -/
theorem negLoop_stuck : ∀ (fuel : Nat) (c : Int) (p : List Station),
    frLoop netNegLoop negC [⟨c, 0, negA, p⟩] [(negA, c)] fuel = none := by
  intro fuel
  induction fuel with
  | zero => intro c p; rfl
  | succ n ih =>
    intro c p
    have hA : netNegLoop.getStation "A" = some negA := by decide
    have hne : (negA = negC) = False := by simp [negA, negC]
    have hlt : decide (c + -1 < c) = true := decide_eq_true (by omega)
    have hnlt : decide (c + -1 < c + -1) = false := decide_eq_false (by omega)
    have hstep : frLoop netNegLoop negC [⟨c, 0, negA, p⟩] [(negA, c)] (n + 1)
        = frLoop netNegLoop negC [⟨c + -1, 0, negA, p ++ [negA]⟩] [(negA, c + -1)] n := by
      simp only [frLoop, heappop_singleton]
      simp only [show negA.neighbors = [("A", -1), ("A", -1)] from rfl]
      simp only [relaxAll, hA, dlookup_cons_self, hlt, hnlt, dinsert_single, heappush_nil,
        hne, if_false, if_true, Bool.false_eq_true]
      simp only [show hsq negA negC = 0 from by decide]
    rw [hstep]
    exact ih _ _

/-- Counterexample to claim C5: on the finite network `netNegLoop` (one
station with a `-1` self-loop and an isolated target) the query
`find_fastest_route "A" "C"` never terminates: no amount of fuel makes the
loop return.  (In Python, `shortest_time["A"]` is improved forever.) -/
theorem C5_counterexample :
    netNegLoop.getStation "A" = some negA ∧
    netNegLoop.getStation "C" = some negC ∧
    ¬ ∃ fuel : Nat, netNegLoop.find_fastest_route "A" "C" fuel ≠ none := by
  refine ⟨by decide, by decide, ?_⟩
  rintro ⟨fuel, hf⟩
  apply hf
  show MetroNetwork.find_fastest_route netNegLoop "A" "C" fuel = none
  unfold MetroNetwork.find_fastest_route
  rw [show netNegLoop.getStation "A" = some negA from by decide,
    show netNegLoop.getStation "C" = some negC from by decide]
  exact negLoop_stuck fuel 0 [negA]

/-! ## Claim C6, amended: the visited list never repeats a stop -/

/-- The `visited` list stays duplicate-free through one neighbour pass (a
stop is appended only under the `not in visited` guard). -/
theorem enqueueNbrs_vis_nodup (net : MetroNetwork) (path : List Station) :
    ∀ (nbrs : List (String × Int)) (q : List (Station × List Station))
      (vis : List Station), vis.Nodup → ((enqueueNbrs net path nbrs q vis).2).Nodup := by
  intro nbrs
  induction nbrs with
  | nil => intro q vis h; exact h
  | cons nb rest ih =>
    intro q vis h
    rcases nb with ⟨nid, w⟩
    simp only [enqueueNbrs]
    cases hg : net.getStation nid with
    | none => exact ih _ _ h
    | some nbst =>
      by_cases hv : nbst ∈ vis
      · simp only [hv, if_true]
        exact ih _ _ h
      · simp only [hv, if_false]
        refine ih _ _ ?_
        simp [List.nodup_append, h, hv]

/-- Whenever the traced BFS loop terminates, the final `visited` list is
duplicate-free (given that the incoming one is). -/
theorem ltLoopTrace_nodup (net : MetroNetwork) (target : Station) :
    ∀ (fuel : Nat) (q : List (Station × List Station)) (vis : List Station)
      (r : Option (List Station)) (tr : List Station), vis.Nodup →
      ltLoopTrace net target q vis fuel = some (r, tr) → tr.Nodup := by
  intro fuel
  induction fuel with
  | zero =>
    intro q vis r tr _ heq
    exact absurd heq (by simp [ltLoopTrace])
  | succ n ih =>
    intro q vis r tr h heq
    match q with
    | [] =>
      simp only [ltLoopTrace, Option.some.injEq, Prod.mk.injEq] at heq
      rw [← heq.2]
      exact h
    | (cur, path) :: rest =>
      simp only [ltLoopTrace] at heq
      by_cases hc : cur = target
      · rw [if_pos hc] at heq
        simp only [Option.some.injEq, Prod.mk.injEq] at heq
        rw [← heq.2]
        exact h
      · rw [if_neg hc] at heq
        exact ih _ _ _ _ (enqueueNbrs_vis_nodup net path cur.neighbors rest vis h) heq

/-- Claim C6 as amended: in any terminating run of `find_least_transfers`,
every stop *other than the start* is marked visited at the moment it is first
enqueued and hence is enqueued at most once; the start stop, however, is not
marked visited at its initial enqueue and can be enqueued once more (at most
twice in total).  The enqueue sequence of a run is `sa :: vis`, where `vis`
is the final visited list reported by the traced loop. -/
theorem C6_amended_enqueue_counts (net : MetroNetwork) (a b : String) (fuel : Nat)
    (r : Option (List Station)) (vis : List Station) (sa : Station)
    (h : net.ltTrace a b fuel = some (r, vis)) (ha : net.getStation a = some sa) :
    vis.Nodup ∧ (∀ s : Station, s ≠ sa → (sa :: vis).count s ≤ 1) ∧
      (sa :: vis).count sa ≤ 2 := by
  have hn : vis.Nodup := by
    unfold MetroNetwork.ltTrace at h
    rw [ha] at h
    cases hb : net.getStation b with
    | none =>
      rw [hb] at h
      simp only [Option.some.injEq, Prod.mk.injEq] at h
      rw [← h.2]
      exact List.nodup_nil
    | some tb =>
      rw [hb] at h
      exact ltLoopTrace_nodup net tb fuel _ _ r vis List.nodup_nil h
  have hcount : ∀ s : Station, vis.count s ≤ 1 := List.nodup_iff_count_le_one.mp hn
  refine ⟨hn, fun s hs => ?_, ?_⟩
  · simpa [List.count_cons, hs] using hcount s
  · simp only [List.count_cons, BEq.refl, if_true]
    have := hcount sa
    omega

/-- Witness for the amended C6: the concrete run of `C6_counterexample`
satisfies the amended bounds (`B` once, the start `A` twice). -/
theorem C6_amended_enqueue_counts_witness :
    netLine.ltTrace "A" "C" 10 = some (none, [lineB, lineA]) ∧
    ([lineB, lineA].Nodup ∧
      (∀ s : Station, s ≠ lineA → (lineA :: [lineB, lineA]).count s ≤ 1) ∧
      (lineA :: [lineB, lineA]).count lineA ≤ 2) :=
  ⟨by decide, C6_amended_enqueue_counts netLine "A" "C" 10 none [lineB, lineA] lineA
    (by decide) (by decide)⟩

/-! ## Claim C9: adjacency symmetry of constructed networks -/

/-- `add_station` preserves adjacency symmetry (the new station has no
neighbours and old adjacency is untouched). -/
theorem mirror_add_station (net : MetroNetwork) (i n l : String) (x y : Int)
    (hm : Mirror net) : Mirror (net.add_station i n l x y) := by
  unfold MetroNetwork.add_station
  split
  · exact hm
  · intro s hs nb hnb
    simp only [List.mem_append, List.mem_singleton] at hs
    rcases hs with hs | rfl
    · obtain ⟨s2, hs2, hidx, hmem⟩ := hm s hs nb hnb
      exact ⟨s2, List.mem_append_left _ hs2, hidx, hmem⟩
    · simp at hnb

/-- `add_connection` preserves adjacency symmetry: it either changes nothing
(missing endpoint) or appends the two mirror entries. -/
theorem mirror_add_connection (net : MetroNetwork) (a b : String) (t : Int)
    (hm : Mirror net) : Mirror (net.add_connection a b t) := by
  unfold MetroNetwork.add_connection
  cases ha : net.getStation a with
  | none => exact hm
  | some sta =>
    cases hb : net.getStation b with
    | none => exact hm
    | some stb =>
      obtain ⟨hamem, haidx⟩ := getStation_mem ha
      obtain ⟨hbmem, hbidx⟩ := getStation_mem hb
      change Mirror (addNeighbor (addNeighbor net a b t) b a t)
      intro s' hs' nb hnb
      unfold addNeighbor at hs' ⊢
      simp only [List.map_map, List.mem_map, Function.comp] at hs'
      obtain ⟨s, hs, rfl⟩ := hs'
      -- normal form of the doubly-updated station
      have hF : ∀ u : Station,
          ((fun v : Station => if v.idx = b then
              { v with neighbors := v.neighbors ++ [(a, t)] } else v)
            (if u.idx = a then { u with neighbors := u.neighbors ++ [(b, t)] } else u)).idx
            = u.idx ∧
          ((fun v : Station => if v.idx = b then
              { v with neighbors := v.neighbors ++ [(a, t)] } else v)
            (if u.idx = a then { u with neighbors := u.neighbors ++ [(b, t)] } else u)).neighbors
            = u.neighbors ++ (if u.idx = a then [(b, t)] else [])
                ++ (if u.idx = b then [(a, t)] else []) := by
        intro u
        by_cases h1 : u.idx = a
        · by_cases h2 : u.idx = b
          · have hab : a = b := h1.symm.trans h2
            subst hab
            simp [h1]
          · have hab : ¬ a = b := fun hh => h2 (h1.trans hh)
            simp [h1, h2, hab]
        · by_cases h2 : u.idx = b
          · have hba : ¬ b = a := fun hh => h1 (h2.trans hh)
            simp [h1, h2, hba]
          · simp [h1, h2]
      have hmemF : ∀ u : Station, u ∈ net.stations →
          ((fun v : Station => if v.idx = b then
              { v with neighbors := v.neighbors ++ [(a, t)] } else v)
            (if u.idx = a then { u with neighbors := u.neighbors ++ [(b, t)] } else u))
            ∈ (net.stations.map fun v : Station => if v.idx = a then
                { v with neighbors := v.neighbors ++ [(b, t)] } else v).map
              (fun v : Station => if v.idx = b then
                { v with neighbors := v.neighbors ++ [(a, t)] } else v) := by
        intro u hu
        simp only [List.map_map, List.mem_map, Function.comp]
        exact ⟨u, hu, rfl⟩
      rw [(hF s).2] at hnb
      rcases List.mem_append.mp hnb with hnb' | hnb2
      · rcases List.mem_append.mp hnb' with hold | hnew1
        · obtain ⟨s2, hs2, hidx, hmem⟩ := hm s hs nb hold
          refine ⟨_, hmemF s2 hs2, ?_, ?_⟩
          · rw [(hF s2).1]; exact hidx
          · rw [(hF s).1, (hF s2).2]
            exact List.mem_append_left _ (List.mem_append_left _ hmem)
        · have hsa : s.idx = a := by
            by_contra hcon
            simp [hcon] at hnew1
          rw [if_pos hsa] at hnew1
          rcases List.mem_singleton.mp hnew1 with rfl
          refine ⟨_, hmemF stb hbmem, ?_, ?_⟩
          · rw [(hF stb).1, hbidx]
          · rw [(hF s).1, (hF stb).2, hsa]
            exact List.mem_append_right _ (by simp [hbidx])
      · have hsb : s.idx = b := by
          by_contra hcon
          simp [hcon] at hnb2
        rw [if_pos hsb] at hnb2
        rcases List.mem_singleton.mp hnb2 with rfl
        refine ⟨_, hmemF sta hamem, ?_, ?_⟩
        · rw [(hF sta).1, haidx]
        · rw [(hF s).1, (hF sta).2, hsb]
          refine List.mem_append_left _ (List.mem_append_right _ ?_)
          simp [haidx]

/-- Claim C9: every network built solely through `add_station` and
`add_connection` (from the empty network) is symmetric — every adjacency
entry `(s, (n, w))` has a mirror entry `(n, (s, w))`. -/
theorem C9_built_networks_symmetric (ops : List BuildOp) : Mirror (buildNet ops) := by
  suffices h : ∀ net : MetroNetwork, Mirror net → Mirror (ops.foldl applyOp net) by
    apply h
    intro s hs nb hnb
    simp at hs
  induction ops with
  | nil => intro net hm; exact hm
  | cons op rest ih =>
    intro net hm
    simp only [List.foldl_cons]
    apply ih
    cases op with
    | station i n l x y => exact mirror_add_station net i n l x y hm
    | connection a b t => exact mirror_add_connection net a b t hm

/-! ## Permutation facts for the binary-heap operations -/

/-- Extracting the `j`-th element while overwriting it is a permutation. -/
theorem get_cons_set_perm {α : Type} (l : List α) :
    ∀ (j : Nat) (hj : j < l.length) (x : α),
      List.Perm (l.get ⟨j, hj⟩ :: l.set j x) (x :: l) := by
  induction l with
  | nil => intro j hj x; simp at hj
  | cons a tl ih =>
    intro j hj x
    cases j with
    | zero => simpa using List.Perm.swap x a tl
    | succ j =>
      have hj2 : j < tl.length := by simpa using hj
      exact ((List.Perm.swap a (tl.get ⟨j, hj2⟩) (tl.set j x)).trans
        (((ih j hj2 x)).cons a)).trans (List.Perm.swap x a tl)

/-- Exchanging the written value with the cons'd value is a permutation. -/
theorem set_exchange_perm {α : Type} (l : List α) :
    ∀ (i : Nat) (a x : α), i < l.length →
      List.Perm (x :: l.set i a) (a :: l.set i x) := by
  induction l with
  | nil => intro i a x hi; simp at hi
  | cons b tl ih =>
    intro i a x hi
    cases i with
    | zero => simpa using List.Perm.swap a x tl
    | succ i =>
      have hi2 : i < tl.length := by simpa using hi
      exact ((List.Perm.swap b x (tl.set i a)).trans
        ((ih i a x hi2).cons b)).trans (List.Perm.swap a b (tl.set i x))

/-- Moving the `j`-th element into slot `i` and then overwriting slot `j` is,
up to permutation, just overwriting slot `i`. -/
theorem set_set_perm {α : Type} (l : List α) :
    ∀ (i j : Nat) (hi : i < l.length) (hj : j < l.length), i ≠ j → ∀ x : α,
      List.Perm ((l.set i (l.get ⟨j, hj⟩)).set j x) (l.set i x) := by
  induction l with
  | nil => intro i j hi; simp at hi
  | cons a tl ih =>
    intro i j hi hj hne x
    cases i with
    | zero =>
      cases j with
      | zero => exact absurd rfl hne
      | succ j =>
        have hj2 : j < tl.length := by simpa using hj
        exact get_cons_set_perm tl j hj2 x
    | succ i =>
      cases j with
      | zero =>
        have hi2 : i < tl.length := by simpa using hi
        exact set_exchange_perm tl i a x hi2
      | succ j =>
        have hi2 : i < tl.length := by simpa using hi
        have hj2 : j < tl.length := by simpa using hj
        exact (ih i j hi2 hj2 (fun hh => hne (congrArg Nat.succ hh)) x).cons a

/-- In-range reads through `hget` are plain list indexing. -/
theorem hget_eq_get (l : List QEntry) (i : Nat) (h : i < l.length) :
    hget l i = l.get ⟨i, h⟩ := by
  unfold hget
  rw [List.getD_eq_getElem l default h]
  simp

/-- Writing the appended slot of `l ++ [a]`. -/
theorem concat_set_last {α : Type} (l : List α) (a x : α) :
    (l ++ [a]).set l.length x = l ++ [x] := by
  induction l with
  | nil => rfl
  | cons b tl ih => simpa using ih

/-- A successful `_siftdown` permutes the array with the new item written at
the hole. -/
theorem siftdownLoop_perm (cmp : QEntry → QEntry → Except Unit Bool) (x : QEntry) :
    ∀ (gas : Nat) (heap : List QEntry) (pos : Nat) (r : List QEntry),
      pos < heap.length → pos ≤ gas →
      siftdownLoop cmp x heap pos gas = Except.ok r →
      List.Perm r (heap.set pos x) := by
  intro gas
  induction gas with
  | zero =>
    intro heap pos r hlen hle heq
    have hp : pos = 0 := by omega
    subst hp
    simp only [siftdownLoop, Except.ok.injEq] at heq
    rw [← heq]
  | succ gas ih =>
    intro heap pos r hlen hle heq
    cases pos with
    | zero =>
      simp only [siftdownLoop, Except.ok.injEq] at heq
      rw [← heq]
    | succ pos =>
      simp only [siftdownLoop] at heq
      cases hc : cmp x (hget heap (pos / 2)) with
      | error e => rw [hc] at heq; exact absurd heq (by simp)
      | ok b =>
        rw [hc] at heq
        cases b with
        | false =>
          simp only [Bool.false_eq_true, if_false, Except.ok.injEq] at heq
          rw [← heq]
        | true =>
          simp only [if_true] at heq
          have hj : pos / 2 < heap.length := by omega
          have hlen2 : pos / 2 < (heap.set (pos + 1) (hget heap (pos / 2))).length := by
            simpa using hj
          have hle2 : pos / 2 ≤ gas := by omega
          have hperm := ih _ _ _ hlen2 hle2 heq
          rw [hget_eq_get heap (pos / 2) hj] at hperm
          exact hperm.trans (set_set_perm heap (pos + 1) (pos / 2) hlen hj (by omega) x)

/-- A successful `_siftup` permutes the array with the new item written at the
hole. -/
theorem siftupLoop_perm (cmp : QEntry → QEntry → Except Unit Bool) (x : QEntry) :
    ∀ (gas : Nat) (heap : List QEntry) (pos : Nat) (r : List QEntry),
      pos < heap.length →
      siftupLoop cmp x heap pos gas = Except.ok r →
      List.Perm r (heap.set pos x) := by
  intro gas
  induction gas with
  | zero =>
    intro heap pos r hlen heq
    exact siftdownLoop_perm cmp x pos heap pos r hlen (le_refl pos) heq
  | succ gas ih =>
    intro heap pos r hlen heq
    simp only [siftupLoop] at heq
    by_cases h1 : 2 * pos + 1 < heap.length
    · rw [if_pos h1] at heq
      by_cases h2 : 2 * pos + 2 < heap.length
      · rw [if_pos h2] at heq
        cases hc : cmp (hget heap (2 * pos + 1)) (hget heap (2 * pos + 2)) with
        | error e => rw [hc] at heq; exact absurd heq (by simp)
        | ok b =>
          rw [hc] at heq
          cases b with
          | true =>
            simp only [if_true] at heq
            have hj : 2 * pos + 1 < heap.length := h1
            have hperm := ih _ _ _ (by simpa using hj) heq
            rw [hget_eq_get heap (2 * pos + 1) hj] at hperm
            exact hperm.trans (set_set_perm heap pos (2 * pos + 1) hlen hj (by omega) x)
          | false =>
            simp only [Bool.false_eq_true, if_false] at heq
            have hj : 2 * pos + 2 < heap.length := h2
            have hperm := ih _ _ _ (by simpa using hj) heq
            rw [hget_eq_get heap (2 * pos + 2) hj] at hperm
            exact hperm.trans (set_set_perm heap pos (2 * pos + 2) hlen hj (by omega) x)
      · rw [if_neg h2] at heq
        have hj : 2 * pos + 1 < heap.length := h1
        have hperm := ih _ _ _ (by simpa using hj) heq
        rw [hget_eq_get heap (2 * pos + 1) hj] at hperm
        exact hperm.trans (set_set_perm heap pos (2 * pos + 1) hlen hj (by omega) x)
    · rw [if_neg h1] at heq
      exact siftdownLoop_perm cmp x pos heap pos r hlen (le_refl pos) heq

/-- A successful `heappush` yields a permutation of the old heap plus the new
item. -/
theorem heappush_perm (cmp : QEntry → QEntry → Except Unit Bool)
    (heap : List QEntry) (x : QEntry) (r : List QEntry)
    (heq : heappush cmp heap x = Except.ok r) : List.Perm r (heap ++ [x]) := by
  unfold heappush siftdown at heq
  have hlen : heap.length < (heap ++ [x]).length := by simp
  have := siftdownLoop_perm cmp x heap.length (heap ++ [x]) heap.length r hlen
    (le_refl _) heq
  rwa [concat_set_last] at this

/-- Unfolding `heappop` on a heap of at least two elements. -/
theorem heappop_cons_concat (cmp : QEntry → QEntry → Except Unit Bool)
    (r0 : QEntry) (rest : List QEntry) (last : QEntry) :
    heappop cmp ((r0 :: rest) ++ [last]) =
      match siftup cmp last (r0 :: rest) 0 with
      | Except.error e => Except.error e
      | Except.ok hh => Except.ok (some (r0, hh)) := by
  unfold heappop
  rw [List.getLast?_concat, List.dropLast_concat]

/-- A successful `heappop` returns one element of the heap together with a
permutation of the rest. -/
theorem heappop_perm (cmp : QEntry → QEntry → Except Unit Bool)
    (heap : List QEntry) (e : QEntry) (h2 : List QEntry)
    (heq : heappop cmp heap = Except.ok (some (e, h2))) :
    List.Perm heap (e :: h2) := by
  cases hl : heap.getLast? with
  | none =>
    have hnil : heap = [] := by simpa using hl
    subst hnil
    exact absurd heq (by simp [heappop])
  | some last =>
    obtain ⟨l2, rfl⟩ := List.getLast?_eq_some_iff.mp hl
    cases l2 with
    | nil =>
      rw [List.nil_append, heappop_singleton] at heq
      simp only [Except.ok.injEq, Option.some.injEq, Prod.mk.injEq] at heq
      rw [← heq.1, ← heq.2]
      exact List.Perm.refl _
    | cons r0 rest =>
      rw [heappop_cons_concat] at heq
      cases hs : siftup cmp last (r0 :: rest) 0 with
      | error er => rw [hs] at heq; exact absurd heq (by simp)
      | ok hh =>
        rw [hs] at heq
        simp only [Except.ok.injEq, Option.some.injEq, Prod.mk.injEq] at heq
        have hperm : List.Perm hh ((r0 :: rest).set 0 last) :=
          siftupLoop_perm cmp last _ (r0 :: rest) 0 hh (by simp) hs
        rw [← heq.1, ← heq.2]
        exact List.Perm.trans ((List.perm_append_singleton last rest).cons r0)
          (hperm.symm.cons r0)

/-! ## Claim C7: the returned total is the path's edge-weight sum -/

/-- The relaxation pass preserves the invariant that every queue entry carries
a start-rooted path of the recorded weight: pre-existing entries survive (up
to heap permutation) and each pushed entry extends the expanded entry's path
by one traversed edge. -/
theorem relaxAll_entries (net : MetroNetwork) (target sa u : Station)
    (ctime : Int) (path : List Station) (hroute : RouteTo net sa u path ctime) :
    ∀ (nbrs : List (String × Int)) (pq : List QEntry) (st : List (Station × Int))
      (pq2 : List QEntry) (st2 : List (Station × Int)),
      (∀ p ∈ nbrs, p ∈ u.neighbors) → EntriesOK net sa pq →
      relaxAll net target ctime path nbrs pq st = Except.ok (pq2, st2) →
      EntriesOK net sa pq2 := by
  intro nbrs
  induction nbrs with
  | nil =>
    intro pq st pq2 st2 _ hok heq
    simp only [relaxAll, Except.ok.injEq, Prod.mk.injEq] at heq
    rw [← heq.1]
    exact hok
  | cons nb rest ih =>
    rcases nb with ⟨nid, w⟩
    intro pq st pq2 st2 hsub hok heq
    simp only [relaxAll] at heq
    cases hg : net.getStation nid with
    | none =>
      simp only [hg] at heq
      exact ih _ _ _ _ (fun p hp => hsub p (List.mem_cons_of_mem _ hp)) hok heq
    | some nbst =>
      simp only [hg] at heq
      by_cases hpush : (match dlookup st nbst with
        | none => true
        | some old => decide (ctime + w < old)) = true
      · rw [if_pos hpush] at heq
        cases hp : heappush entLtE pq ⟨ctime + w, hsq nbst target, nbst, path ++ [nbst]⟩ with
        | error er => rw [hp] at heq; exact absurd heq (by simp)
        | ok pq1 =>
          rw [hp] at heq
          refine ih _ _ _ _ (fun p hpp => hsub p (List.mem_cons_of_mem _ hpp)) ?_ heq
          intro e he
          have hmem := (heappush_perm entLtE pq _ pq1 hp).mem_iff.mp he
          rcases List.mem_append.mp hmem with hold | hnew
          · exact hok e hold
          · rcases List.mem_singleton.mp hnew with rfl
            obtain ⟨q, rfl, hseg⟩ := hroute
            obtain ⟨_, hidx⟩ := getStation_mem hg
            refine ⟨q ++ [nbst], by simp, ?_⟩
            refine Seg.snoc hseg ?_ ?_
            · rw [hidx]; exact hsub (nid, w) (List.mem_cons_self _ _)
            · rw [hidx]; exact hg
      · rw [if_neg hpush] at heq
        exact ih _ _ _ _ (fun p hp => hsub p (List.mem_cons_of_mem _ hp)) hok heq

/-- Whenever the main loop of the weighted search returns a `(path, total)`
pair, the path is a start-to-target path and `total` is the integer sum of the
edge weights traversed along it. -/
theorem frLoop_returns_route (net : MetroNetwork) (sa target : Station) :
    ∀ (fuel : Nat) (pq : List QEntry) (st : List (Station × Int))
      (p : List Station) (t : Int), EntriesOK net sa pq →
      frLoop net target pq st fuel = some (Except.ok (some (p, t))) →
      RouteTo net sa target p t := by
  intro fuel
  induction fuel with
  | zero =>
    intro pq st p t _ heq
    exact absurd heq (by simp [frLoop])
  | succ n ih =>
    intro pq st p t hok heq
    match pq with
    | [] => exact absurd heq (by simp [frLoop])
    | e0 :: pqrest =>
      simp only [frLoop] at heq
      cases hpop : heappop entLtE (e0 :: pqrest) with
      | error er => simp only [hpop] at heq; simp at heq
      | ok popres =>
        simp only [hpop] at heq
        cases popres with
        | none => simp at heq
        | some pr =>
          rcases pr with ⟨e, pq1⟩
          have hperm := heappop_perm entLtE _ e pq1 hpop
          have heok : RouteTo net sa e.st e.path e.time :=
            hok e (hperm.mem_iff.mpr (List.mem_cons_self _ _))
          have heq2 : (if e.st = target then some (Except.ok (some (e.path, e.time)))
              else match relaxAll net target e.time e.path e.st.neighbors pq1 st with
                | Except.error er => some (Except.error er)
                | Except.ok (pq2, st2) => frLoop net target pq2 st2 n)
              = some (Except.ok (some (p, t))) := heq
          by_cases htgt : e.st = target
          · rw [if_pos htgt] at heq2
            simp only [Option.some.injEq, Except.ok.injEq, Prod.mk.injEq] at heq2
            rw [← heq2.1, ← heq2.2, ← htgt]
            exact heok
          · rw [if_neg htgt] at heq2
            cases hrel : relaxAll net target e.time e.path e.st.neighbors pq1 st with
            | error er => simp only [hrel] at heq2; simp at heq2
            | ok res =>
              rcases res with ⟨pq2, st2⟩
              simp only [hrel] at heq2
              refine ih pq2 st2 p t ?_ heq2
              refine relaxAll_entries net target sa e.st e.time e.path heok
                e.st.neighbors pq1 st pq2 st2 (fun q hq => hq) ?_ hrel
              intro e2 he2
              exact hok e2 (hperm.mem_iff.mpr (List.mem_cons_of_mem _ he2))

/-- Claim C7: whenever `find_fastest_route` returns a pair `(p, t)`, the total
`t` is exactly the integer sum of the edge weights traversed along the
returned path `p`, which runs from the start station to the target station
(witnessed by a `Seg` derivation; the floating-point heuristic values are
carried only inside queue entries and never contribute to `t`). -/
theorem C7_total_is_path_weight (net : MetroNetwork) (a b : String) (fuel : Nat)
    (p : List Station) (t : Int)
    (h : net.find_fastest_route a b fuel = some (Except.ok (some (p, t)))) :
    ∃ sa tb, net.getStation a = some sa ∧ net.getStation b = some tb ∧
      RouteTo net sa tb p t := by
  unfold MetroNetwork.find_fastest_route at h
  cases ha : net.getStation a with
  | none => rw [ha] at h; exact absurd h (by simp)
  | some sa =>
    cases hb : net.getStation b with
    | none => rw [ha, hb] at h; exact absurd h (by simp)
    | some tb =>
      rw [ha, hb] at h
      refine ⟨sa, tb, rfl, rfl, ?_⟩
      refine frLoop_returns_route net sa tb fuel _ _ p t ?_ h
      intro e he
      rcases List.mem_singleton.mp he with rfl
      exact ⟨[], rfl, Seg.nil sa⟩

/-- Witness for C7: on `netLine`, the concrete run from `"A"` to `"B"`
returns the pair `([A, B], 1)`, and `1` is indeed the weight of that path. -/
theorem C7_total_is_path_weight_witness :
    netLine.find_fastest_route "A" "B" 2 =
      some (Except.ok (some ([lineA, lineB], 1))) ∧
    ∃ sa tb, netLine.getStation "A" = some sa ∧ netLine.getStation "B" = some tb ∧
      RouteTo netLine sa tb [lineA, lineB] 1 :=
  ⟨by decide, C7_total_is_path_weight netLine "A" "B" 2 [lineA, lineB] 1 (by decide)⟩

/-! ## Order correctness of the heap operations -/

/-- `keyLe` is reflexive. -/
theorem keyLe_refl (a : Int × Int) : keyLe a a := by unfold keyLe; omega

/-- `keyLe` is transitive. -/
theorem keyLe_trans {a b c : Int × Int} (h1 : keyLe a b) (h2 : keyLe b c) :
    keyLe a c := by
  unfold keyLe at h1 h2 ⊢
  omega

/-- A failed strict comparison flips into `keyLe`. -/
theorem keyLe_of_not_keyLt {a b : Int × Int} (h : ¬ keyLt a b) : keyLe b a := by
  unfold keyLt at h
  unfold keyLe
  omega

/-- Strict order implies the reflexive one. -/
theorem keyLe_of_keyLt {a b : Int × Int} (h : keyLt a b) : keyLe a b := by
  unfold keyLt at h
  unfold keyLe
  omega

/-- A successful tuple comparison computes the strict key order. -/
theorem entLtE_ok {a b : QEntry} {r : Bool} (h : entLtE a b = Except.ok r) :
    r = decide (keyLt (qkey a) (qkey b)) := by
  unfold entLtE at h
  by_cases hk : qkey a = qkey b
  · rw [if_pos hk] at h
    exact absurd h (by simp)
  · rw [if_neg hk] at h
    exact (Except.ok.inj h).symm

/-- Reading a written slot. -/
theorem hget_set_self (l : List QEntry) (i : Nat) (v : QEntry) (h : i < l.length) :
    hget (l.set i v) i = v := by
  rw [hget_eq_get _ _ (by simpa using h)]
  simp

/-- Reading an untouched slot. -/
theorem hget_set_of_ne (l : List QEntry) (i j : Nat) (v : QEntry) (h : i ≠ j) :
    hget (l.set i v) j = hget l j := by
  unfold hget List.getD
  rw [List.get?_set_ne v l h]

/-- Reading inside the left part of an append. -/
theorem hget_append_left (l l2 : List QEntry) (j : Nat) (h : j < l.length) :
    hget (l ++ l2) j = hget l j :=
  List.getD_append l l2 default j h

/-- Writing `x` into the hole yields a heap, provided all other edges are
heap-ordered, the hole's children dominate `x`, and the hole's parent is
below `x`. -/
theorem set_hole_isHeap (heap : List QEntry) (pos : Nat) (x : QEntry)
    (hlen : pos < heap.length)
    (H1 : ∀ i, 0 < i → i < heap.length → i ≠ pos → (i - 1) / 2 ≠ pos →
      keyLe (qkey (hget heap ((i - 1) / 2))) (qkey (hget heap i)))
    (H2 : ∀ c, 0 < c → c < heap.length → (c - 1) / 2 = pos →
      keyLe (qkey x) (qkey (hget heap c)))
    (Hp : 0 < pos → keyLe (qkey (hget heap ((pos - 1) / 2))) (qkey x)) :
    IsHeap (heap.set pos x) := by
  intro i hi hilen
  rw [List.length_set] at hilen
  by_cases hip : i = pos
  · subst hip
    rw [hget_set_of_ne heap i ((i - 1) / 2) x (by omega), hget_set_self heap i x hlen]
    exact Hp hi
  · rw [hget_set_of_ne heap pos i x (fun hh => hip hh.symm)]
    by_cases hpar : (i - 1) / 2 = pos
    · rw [hpar, hget_set_self heap pos x hlen]
      exact H2 i hi hilen hpar
    · rw [hget_set_of_ne heap pos ((i - 1) / 2) x (fun hh => hpar hh.symm)]
      exact H1 i hi hilen hip hpar

/-- A successful `_siftdown` run produces a heap, starting from an array that
is heap-ordered except around the hole. -/
theorem siftdownLoop_isHeap (x : QEntry) :
    ∀ (gas : Nat) (heap : List QEntry) (pos : Nat) (r : List QEntry),
      pos < heap.length → pos ≤ gas →
      (∀ i, 0 < i → i < heap.length → i ≠ pos → (i - 1) / 2 ≠ pos →
        keyLe (qkey (hget heap ((i - 1) / 2))) (qkey (hget heap i))) →
      (∀ c, 0 < c → c < heap.length → (c - 1) / 2 = pos →
        keyLe (qkey x) (qkey (hget heap c))) →
      (∀ c, 0 < c → c < heap.length → (c - 1) / 2 = pos → 0 < pos →
        keyLe (qkey (hget heap ((pos - 1) / 2))) (qkey (hget heap c))) →
      siftdownLoop entLtE x heap pos gas = Except.ok r → IsHeap r := by
  intro gas
  induction gas with
  | zero =>
    intro heap pos r hlen hle H1 H2 _ heq
    have hp : pos = 0 := by omega
    subst hp
    simp only [siftdownLoop, Except.ok.injEq] at heq
    rw [← heq]
    exact set_hole_isHeap heap 0 x hlen H1 H2 (fun h => absurd h (by omega))
  | succ gas ih =>
    intro heap pos r hlen hle H1 H2 H3 heq
    cases pos with
    | zero =>
      simp only [siftdownLoop, Except.ok.injEq] at heq
      rw [← heq]
      exact set_hole_isHeap heap 0 x hlen H1 H2 (fun h => absurd h (by omega))
    | succ pos =>
      simp only [siftdownLoop] at heq
      cases hc : entLtE x (hget heap (pos / 2)) with
      | error e => rw [hc] at heq; exact absurd heq (by simp)
      | ok b =>
        rw [hc] at heq
        have heq2 : (if b then
            siftdownLoop entLtE x (heap.set (pos + 1) (hget heap (pos / 2))) (pos / 2) gas
            else Except.ok (heap.set (pos + 1) x)) = Except.ok r := heq
        have hb := entLtE_ok hc
        subst hb
        by_cases hlt : keyLt (qkey x) (qkey (hget heap (pos / 2)))
        · rw [decide_eq_true hlt] at heq2
          simp only [eq_self_iff_true, if_true] at heq2
          have hP : pos / 2 < heap.length := by omega
          refine ih (heap.set (pos + 1) (hget heap (pos / 2))) (pos / 2) r
            (by simpa using hP) (by omega) ?_ ?_ ?_ heq2
          · -- edges not touching the new hole pos / 2
            intro i hi hil hi1 hi2
            rw [List.length_set] at hil
            by_cases hio : i = pos + 1
            · exfalso
              apply hi2
              omega
            · rw [hget_set_of_ne heap (pos + 1) i _ (fun hh => hio hh.symm)]
              by_cases hpo : (i - 1) / 2 = pos + 1
              · rw [hpo, hget_set_self heap (pos + 1) _ hlen]
                exact H3 i hi hil hpo (by omega)
              · rw [hget_set_of_ne heap (pos + 1) ((i - 1) / 2) _ (fun hh => hpo hh.symm)]
                exact H1 i hi hil hio hpo
          · -- children of the new hole dominate x
            intro c h0 hcl hcp
            rw [List.length_set] at hcl
            by_cases hco : c = pos + 1
            · subst hco
              rw [hget_set_self heap (pos + 1) _ hlen]
              exact keyLe_of_keyLt hlt
            · rw [hget_set_of_ne heap (pos + 1) c _ (fun hh => hco hh.symm)]
              have hedge := H1 c h0 hcl hco (by omega)
              rw [hcp] at hedge
              exact keyLe_trans (keyLe_of_keyLt hlt) hedge
          · -- children of the new hole dominate the new hole's parent
            intro c h0 hcl hcp hpp
            rw [List.length_set] at hcl
            have hP2 : 0 < pos / 2 := hpp
            rw [hget_set_of_ne heap (pos + 1) ((pos / 2 - 1) / 2) _ (by omega)]
            have pLe : keyLe (qkey (hget heap ((pos / 2 - 1) / 2)))
                (qkey (hget heap (pos / 2))) :=
              H1 (pos / 2) hP2 hP (by omega) (by omega)
            by_cases hco : c = pos + 1
            · subst hco
              rw [hget_set_self heap (pos + 1) _ hlen]
              exact pLe
            · rw [hget_set_of_ne heap (pos + 1) c _ (fun hh => hco hh.symm)]
              have hedge := H1 c h0 hcl hco (by omega)
              rw [hcp] at hedge
              exact keyLe_trans pLe hedge
        · rw [decide_eq_false hlt] at heq2
          simp only [Bool.false_eq_true, if_false, Except.ok.injEq] at heq2
          rw [← heq2]
          exact set_hole_isHeap heap (pos + 1) x hlen H1 H2
            (fun _ => keyLe_of_not_keyLt hlt)

/-- A successful `_siftup` run produces a heap, starting from an array that is
heap-ordered except around the hole (whose children must dominate the hole's
parent). -/
theorem siftupLoop_isHeap (x : QEntry) :
    ∀ (gas : Nat) (heap : List QEntry) (pos : Nat) (r : List QEntry),
      pos < heap.length → heap.length ≤ gas + pos →
      (∀ i, 0 < i → i < heap.length → i ≠ pos → (i - 1) / 2 ≠ pos →
        keyLe (qkey (hget heap ((i - 1) / 2))) (qkey (hget heap i))) →
      (∀ c, 0 < c → c < heap.length → (c - 1) / 2 = pos → 0 < pos →
        keyLe (qkey (hget heap ((pos - 1) / 2))) (qkey (hget heap c))) →
      siftupLoop entLtE x heap pos gas = Except.ok r → IsHeap r := by
  intro gas
  induction gas with
  | zero =>
    intro heap pos r hlen hgas A B heq
    have heq2 : siftdownLoop entLtE x heap pos pos = Except.ok r := heq
    exact siftdownLoop_isHeap x pos heap pos r hlen (le_refl pos) A
      (fun c h0 hcl hcp => absurd hcl (by omega))
      (fun c h0 hcl hcp _ => absurd hcl (by omega)) heq2
  | succ gas ih =>
    intro heap pos r hlen hgas A B heq
    simp only [siftupLoop] at heq
    have step : ∀ c : Nat, 0 < c → c < heap.length → (c - 1) / 2 = pos →
        (∀ d, 0 < d → d < heap.length → (d - 1) / 2 = pos →
          keyLe (qkey (hget heap c)) (qkey (hget heap d))) →
        siftupLoop entLtE x (heap.set pos (hget heap c)) c gas = Except.ok r →
        IsHeap r := by
      intro c hc0 hcl hcp hcmin heqc
      have hcge : pos + 1 ≤ c := by omega
      refine ih (heap.set pos (hget heap c)) c r (by simpa using hcl)
        (by rw [List.length_set]; omega) ?_ ?_ heqc
      · intro i hi hil hi1 hi2
        rw [List.length_set] at hil
        by_cases hipos : i = pos
        · subst hipos
          rw [hget_set_of_ne heap i ((i - 1) / 2) _ (by omega),
            hget_set_self heap i _ hlen]
          exact B c (by omega) hcl hcp hi
        · rw [hget_set_of_ne heap pos i _ (fun hh => hipos hh.symm)]
          by_cases hpp : (i - 1) / 2 = pos
          · rw [hpp, hget_set_self heap pos _ hlen]
            exact hcmin i hi hil hpp
          · rw [hget_set_of_ne heap pos ((i - 1) / 2) _ (fun hh => hpp hh.symm)]
            exact A i hi hil hipos hpp
      · intro d h0 hdl hdp _
        rw [List.length_set] at hdl
        rw [hcp, hget_set_self heap pos _ hlen,
          hget_set_of_ne heap pos d _ (by omega)]
        have hedge := A d h0 hdl (by omega) (by omega)
        rw [hdp] at hedge
        exact hedge
    by_cases h1 : 2 * pos + 1 < heap.length
    · rw [if_pos h1] at heq
      by_cases h2 : 2 * pos + 2 < heap.length
      · rw [if_pos h2] at heq
        cases hc : entLtE (hget heap (2 * pos + 1)) (hget heap (2 * pos + 2)) with
        | error e => rw [hc] at heq; exact absurd heq (by simp)
        | ok b =>
          rw [hc] at heq
          have heq2 : siftupLoop entLtE x
              (heap.set pos (hget heap (if b then 2 * pos + 1 else 2 * pos + 2)))
              (if b then 2 * pos + 1 else 2 * pos + 2) gas = Except.ok r := heq
          have hb := entLtE_ok hc
          subst hb
          by_cases hlt : keyLt (qkey (hget heap (2 * pos + 1)))
              (qkey (hget heap (2 * pos + 2)))
          · rw [decide_eq_true hlt] at heq2
            simp only [eq_self_iff_true, if_true] at heq2
            refine step (2 * pos + 1) (by omega) h1 (by omega) ?_ heq2
            intro d h0 hdl hdp
            have hd : d = 2 * pos + 1 ∨ d = 2 * pos + 2 := by omega
            rcases hd with rfl | rfl
            · exact keyLe_refl _
            · exact keyLe_of_keyLt hlt
          · rw [decide_eq_false hlt] at heq2
            simp only [Bool.false_eq_true, if_false] at heq2
            refine step (2 * pos + 2) (by omega) h2 (by omega) ?_ heq2
            intro d h0 hdl hdp
            have hd : d = 2 * pos + 1 ∨ d = 2 * pos + 2 := by omega
            rcases hd with rfl | rfl
            · exact keyLe_of_not_keyLt hlt
            · exact keyLe_refl _
      · rw [if_neg h2] at heq
        refine step (2 * pos + 1) (by omega) h1 (by omega) ?_ heq
        intro d h0 hdl hdp
        have hd : d = 2 * pos + 1 := by omega
        rw [hd]
        exact keyLe_refl _
    · rw [if_neg h1] at heq
      have heq2 : siftdownLoop entLtE x heap pos pos = Except.ok r := heq
      exact siftdownLoop_isHeap x pos heap pos r hlen (le_refl pos) A
        (fun c h0 hcl hcp => absurd hcl (by omega))
        (fun c h0 hcl hcp _ => absurd hcl (by omega)) heq2

/-- A successful `heappush` preserves the heap invariant. -/
theorem heappush_isHeap (heap : List QEntry) (x : QEntry) (r : List QEntry)
    (hh : IsHeap heap) (heq : heappush entLtE heap x = Except.ok r) : IsHeap r := by
  unfold heappush siftdown at heq
  refine siftdownLoop_isHeap x heap.length (heap ++ [x]) heap.length r
    (by simp) (le_refl _) ?_ ?_ ?_ heq
  · intro i hi hil hi1 _
    rw [List.length_append, List.length_singleton] at hil
    have hi2 : i < heap.length := by omega
    rw [hget_append_left heap [x] i hi2,
      hget_append_left heap [x] ((i - 1) / 2) (by omega)]
    exact hh i hi hi2
  · intro c h0 hcl hcp
    rw [List.length_append, List.length_singleton] at hcl
    omega
  · intro c h0 hcl hcp _
    rw [List.length_append, List.length_singleton] at hcl
    omega

/-- A successful `heappop` leaves a heap. -/
theorem heappop_isHeap (heap : List QEntry) (e : QEntry) (h2 : List QEntry)
    (hh : IsHeap heap) (heq : heappop entLtE heap = Except.ok (some (e, h2))) :
    IsHeap h2 := by
  cases hl : heap.getLast? with
  | none =>
    have hnil : heap = [] := by simpa using hl
    subst hnil
    exact absurd heq (by simp [heappop])
  | some last =>
    obtain ⟨l2, rfl⟩ := List.getLast?_eq_some_iff.mp hl
    cases l2 with
    | nil =>
      rw [List.nil_append, heappop_singleton] at heq
      simp only [Except.ok.injEq, Option.some.injEq, Prod.mk.injEq] at heq
      rw [← heq.2]
      intro i hi hil
      simp at hil
    | cons r0 rest =>
      rw [heappop_cons_concat] at heq
      cases hs : siftup entLtE last (r0 :: rest) 0 with
      | error er => rw [hs] at heq; exact absurd heq (by simp)
      | ok hh2 =>
        rw [hs] at heq
        simp only [Except.ok.injEq, Option.some.injEq, Prod.mk.injEq] at heq
        rw [← heq.2]
        unfold siftup at hs
        refine siftupLoop_isHeap last (r0 :: rest).length (r0 :: rest) 0 hh2
          (by simp) (by omega) ?_ (fun c h0 hcl hcp hpp => absurd hpp (by omega)) hs
        intro i hi hil _ _
        have hil2 : i < ((r0 :: rest) ++ [last]).length := by
          rw [List.length_append]; omega
        have hpar : (i - 1) / 2 < (r0 :: rest).length := by omega
        rw [← hget_append_left (r0 :: rest) [last] i hil,
          ← hget_append_left (r0 :: rest) [last] ((i - 1) / 2) hpar]
        exact hh i hi hil2

/-- In a heap, the root is minimal for the `(total_time, heuristic)` order. -/
theorem isHeap_root_min (heap : List QEntry) (hh : IsHeap heap) :
    ∀ i, i < heap.length → keyLe (qkey (hget heap 0)) (qkey (hget heap i)) := by
  intro i
  induction i using Nat.strong_induction_on with
  | _ i ih =>
    intro hil
    cases Nat.eq_zero_or_pos i with
    | inl h0 => rw [h0]; exact keyLe_refl _
    | inr hpos =>
      have hparent := hh i hpos hil
      exact keyLe_trans (ih ((i - 1) / 2) (by omega) (by omega)) hparent

/-- A successful `heappop` returns the root, which is key-minimal among all
entries of the popped heap. -/
theorem heappop_min (heap : List QEntry) (e : QEntry) (h2 : List QEntry)
    (hh : IsHeap heap) (heq : heappop entLtE heap = Except.ok (some (e, h2))) :
    ∀ e2 ∈ heap, keyLe (qkey e) (qkey e2) := by
  have hroot : e = hget heap 0 := by
    cases hl : heap.getLast? with
    | none =>
      have hnil : heap = [] := by simpa using hl
      subst hnil
      exact absurd heq (by simp [heappop])
    | some last =>
      obtain ⟨l2, rfl⟩ := List.getLast?_eq_some_iff.mp hl
      cases l2 with
      | nil =>
        rw [List.nil_append, heappop_singleton] at heq
        simp only [Except.ok.injEq, Option.some.injEq, Prod.mk.injEq] at heq
        rw [← heq.1]
        rfl
      | cons r0 rest =>
        rw [heappop_cons_concat] at heq
        cases hs : siftup entLtE last (r0 :: rest) 0 with
        | error er => rw [hs] at heq; exact absurd heq (by simp)
        | ok hh2 =>
          rw [hs] at heq
          simp only [Except.ok.injEq, Option.some.injEq, Prod.mk.injEq] at heq
          rw [← heq.1]
          rfl
  intro e2 he2
  obtain ⟨i, hi⟩ := List.get_of_mem he2
  have hie : e2 = hget heap i.1 := by
    rw [hget_eq_get heap i.1 i.2, hi]
  rw [hroot, hie]
  exact isHeap_root_min heap hh i.1 i.2

/-- Claim C4 as amended: the queue-entry ordering is *not* total — a
comparison that reaches two entries agreeing on `(total_time, heuristic)`
raises `TypeError` instead of falling back to insertion order (see
`C4_counterexample`) — but every heap operation that does succeed is
order-correct: `heappush` preserves the binary-heap invariant, and a
successful `heappop` preserves it and yields an entry whose
`(total_time, heuristic)` key is minimal in the queue (smallest cumulative
weight first, ties broken by the heuristic value). -/
theorem C4_amended_heap_pops_min :
    (∀ (pq : List QEntry) (x : QEntry) (pq2 : List QEntry),
        IsHeap pq → heappush entLtE pq x = Except.ok pq2 → IsHeap pq2) ∧
    (∀ (pq : List QEntry) (e : QEntry) (pq1 : List QEntry),
        IsHeap pq → heappop entLtE pq = Except.ok (some (e, pq1)) →
        IsHeap pq1 ∧ ∀ e2 ∈ pq, keyLe (qkey e) (qkey e2)) :=
  ⟨fun pq x pq2 hh heq => heappush_isHeap pq x pq2 hh heq,
    fun pq e pq1 hh heq =>
      ⟨heappop_isHeap pq e pq1 hh heq, heappop_min pq e pq1 hh heq⟩⟩

/-- Witness for the amended C4 on a concrete two-entry heap. -/
theorem C4_amended_heap_pops_min_witness :
    IsHeap [⟨0, 0, default, []⟩, ⟨1, 0, default, []⟩] ∧
    heappop entLtE [⟨0, 0, default, []⟩, ⟨1, 0, default, []⟩]
      = Except.ok (some (⟨0, 0, default, []⟩, [⟨1, 0, default, []⟩])) ∧
    (IsHeap [⟨1, 0, default, []⟩] ∧
      ∀ e2 ∈ [(⟨0, 0, default, []⟩ : QEntry), ⟨1, 0, default, []⟩],
        keyLe (qkey ⟨0, 0, default, []⟩) (qkey e2)) := by
  have hh : IsHeap [⟨0, 0, default, []⟩, ⟨1, 0, default, []⟩] := by
    intro i hi hil
    simp only [List.length_cons, List.length_nil] at hil
    have hi1 : i = 1 := by omega
    subst hi1
    decide
  exact ⟨hh, by decide,
    C4_amended_heap_pops_min.2 _ _ _ hh (by decide)⟩

/-! ## Walk decomposition lemmas -/

/-- Inverting an empty walk. -/
theorem Seg_nil_inv {net : MetroNetwork} {b v : Station} {t : Int}
    (h : Seg net b [] v t) : v = b ∧ t = 0 := by
  cases h
  exact ⟨rfl, rfl⟩

/-- Splitting off the last step of a non-empty walk. -/
theorem Seg_snoc_split {net : MetroNetwork} {b : Station} {q : List Station}
    {v : Station} {t : Int} (h : Seg net b q v t) : q ≠ [] →
    ∃ (q1 : List Station) (pr : Station) (t1 w : Int),
      q = q1 ++ [v] ∧ Seg net b q1 pr t1 ∧ (v.idx, w) ∈ pr.neighbors ∧
      net.getStation v.idx = some v ∧ t = t1 + w := by
  induction h with
  | nil b => intro hne; exact absurd rfl hne
  | @cons b0 c d q0 w v0 he hres hsub ih =>
    intro _
    by_cases hq : q0 = []
    · subst hq
      obtain ⟨rfl, rfl⟩ := Seg_nil_inv hsub
      exact ⟨[], b0, 0, w, rfl, Seg.nil b0, he, hres, by omega⟩
    · obtain ⟨q1, pr, t1, w1, hq', hseg, hedge, hres2, ht⟩ := ih hq
      exact ⟨c :: q1, pr, w + t1, w1, by rw [hq', List.cons_append], Seg.cons he hres hseg, hedge,
        hres2, by omega⟩

/-- A duplicate-free list included in another is no longer than it. -/
theorem nodup_subset_length {l1 l2 : List Station} (hn : l1.Nodup)
    (hsub : ∀ x ∈ l1, x ∈ l2) : l1.length ≤ l2.length := by
  classical
  calc l1.length = l1.toFinset.card := (List.toFinset_card_of_nodup hn).symm
    _ ≤ l2.toFinset.card := Finset.card_le_card (fun x hx => by
        simp only [List.mem_toFinset] at hx ⊢
        exact hsub x hx)
    _ ≤ l2.length := l2.toFinset_card_le

/-! ## The neighbour pass of the breadth-first search -/

/-- Effect of one full neighbour pass: the queue grows by a block `new` of
entries appended at the back, the visited list grows by exactly the stations
of `new`, each new entry extends the popped path by one freshly discovered
neighbour, and afterwards every resolvable neighbour is visited. -/
theorem enqueueNbrs_spec (net : MetroNetwork) (path : List Station) :
    ∀ (nbrs : List (String × Int)) (q : List (Station × List Station))
      (vis : List Station),
      ∃ new : List (Station × List Station),
        (enqueueNbrs net path nbrs q vis).1 = q ++ new ∧
        (enqueueNbrs net path nbrs q vis).2 = vis ++ new.map Prod.fst ∧
        (∀ e ∈ new, e.2 = path ++ [e.1] ∧ e.1 ∉ vis ∧
          ∃ w, (e.1.idx, w) ∈ nbrs ∧ net.getStation e.1.idx = some e.1) ∧
        (∀ nid w st, (nid, w) ∈ nbrs → net.getStation nid = some st →
          st ∈ (enqueueNbrs net path nbrs q vis).2) := by
  intro nbrs
  induction nbrs with
  | nil =>
    intro q vis
    refine ⟨[], by simp [enqueueNbrs], by simp [enqueueNbrs], by simp, ?_⟩
    intro nid w st hmem
    simp at hmem
  | cons nb rest ih =>
    rcases nb with ⟨nid, w0⟩
    intro q vis
    cases hg : net.getStation nid with
    | none =>
      have hstep : enqueueNbrs net path ((nid, w0) :: rest) q vis
          = enqueueNbrs net path rest q vis := by
        simp [enqueueNbrs, hg]
      rw [hstep]
      obtain ⟨new, h1, h2, h3, h4⟩ := ih q vis
      refine ⟨new, h1, h2, ?_, ?_⟩
      · intro e he
        obtain ⟨hpa, hb2, w1, hw1, hres⟩ := h3 e he
        exact ⟨hpa, hb2, w1, List.mem_cons_of_mem _ hw1, hres⟩
      · intro nid2 w2 st hmem hres
        rcases List.mem_cons.mp hmem with heq | hmem2
        · injection heq with hi1 hi2
          subst hi1
          rw [hg] at hres
          exact absurd hres (by simp)
        · exact h4 nid2 w2 st hmem2 hres
    | some nbst =>
      by_cases hv : nbst ∈ vis
      · have hstep : enqueueNbrs net path ((nid, w0) :: rest) q vis
            = enqueueNbrs net path rest q vis := by
          simp [enqueueNbrs, hg, hv]
        rw [hstep]
        obtain ⟨new, h1, h2, h3, h4⟩ := ih q vis
        refine ⟨new, h1, h2, ?_, ?_⟩
        · intro e he
          obtain ⟨hpa, hb2, w1, hw1, hres⟩ := h3 e he
          exact ⟨hpa, hb2, w1, List.mem_cons_of_mem _ hw1, hres⟩
        · intro nid2 w2 st hmem hres
          rcases List.mem_cons.mp hmem with heq | hmem2
          · injection heq with hi1 hi2
            subst hi1
            rw [hg] at hres
            rcases Option.some.inj hres with rfl
            rw [h2]
            exact List.mem_append_left _ hv
          · exact h4 nid2 w2 st hmem2 hres
      · have hstep : enqueueNbrs net path ((nid, w0) :: rest) q vis
            = enqueueNbrs net path rest (q ++ [(nbst, path ++ [nbst])]) (vis ++ [nbst]) := by
          simp [enqueueNbrs, hg, hv]
        rw [hstep]
        obtain ⟨new, h1, h2, h3, h4⟩ := ih (q ++ [(nbst, path ++ [nbst])]) (vis ++ [nbst])
        obtain ⟨hnmem, hnidx⟩ := getStation_mem hg
        refine ⟨(nbst, path ++ [nbst]) :: new, ?_, ?_, ?_, ?_⟩
        · rw [h1, List.append_assoc]
          rfl
        · rw [h2, List.map_cons, List.append_assoc]
          rfl
        · intro e he
          rcases List.mem_cons.mp he with rfl | he2
          · refine ⟨rfl, hv, w0, ?_, ?_⟩
            · rw [hnidx]
              exact List.mem_cons_self _ _
            · rw [hnidx]
              exact hg
          · obtain ⟨hpa, hb2, w1, hw1, hres⟩ := h3 e he2
            refine ⟨hpa, fun hx => hb2 (List.mem_append_left _ hx), w1,
              List.mem_cons_of_mem _ hw1, hres⟩
        · intro nid2 w2 st hmem hres
          rcases List.mem_cons.mp hmem with heq | hmem2
          · injection heq with hi1 hi2
            subst hi1
            rw [hg] at hres
            rcases Option.some.inj hres with rfl
            rw [h2]
            exact List.mem_append_left _ (List.mem_append_right _ (List.mem_singleton.mpr rfl))
          · exact h4 nid2 w2 st hmem2 hres

/-- When the queue has run empty, every station reachable from the start has
been expanded: walks of every length are absorbed by `expanded`/`discovered`
since nothing is queued any more. -/
theorem bfs_empty_complete (net : MetroNetwork) (sa tg : Station)
    (P vis : List Station) (hinv : BfsInv net sa tg P [] vis) :
    ∀ (n : Nat) (q : List Station) (w : Station) (t : Int),
      q.length = n → Seg net sa q w t → w ∈ P := by
  intro n
  induction n using Nat.strong_induction_on with
  | _ n ih =>
    intro q w t hlen hseg
    have hsaP : sa ∈ P := by
      rcases hinv.discovered sa (Or.inr rfl) with h | ⟨p, hp⟩
      · exact h
      · simp at hp
    by_cases hq : q = []
    · subst hq
      obtain ⟨rfl, rfl⟩ := Seg_nil_inv hseg
      exact hsaP
    · obtain ⟨q1, pr, t1, w1, hqeq, hseg1, hedge, hres, _⟩ := Seg_snoc_split hseg hq
      have hlt : q1.length < n := by
        subst hlen
        rw [hqeq]
        simp
      have hpr : pr ∈ P := ih q1.length hlt q1 pr t1 rfl hseg1
      have hw : w ∈ vis := hinv.expanded pr hpr (w.idx, w1) hedge w hres
      rcases hinv.discovered w (Or.inl hw) with h | ⟨p, hp⟩
      · exact h
      · simp at hp

/-- One expansion step of the breadth-first loop, as an equation. -/
theorem ltLoop_cons_step (net : MetroNetwork) (tg cur : Station)
    (path : List Station) (rest : List (Station × List Station))
    (vis : List Station) (fuel : Nat) (hne : cur ≠ tg) :
    ltLoop net tg ((cur, path) :: rest) vis (fuel + 1)
      = ltLoop net tg (enqueueNbrs net path cur.neighbors rest vis).1
          (enqueueNbrs net path cur.neighbors rest vis).2 fuel := by
  simp [ltLoop, hne]

/-- The breadth-first loop returns the head path as soon as the popped station
is the target. -/
theorem ltLoop_cons_hit (net : MetroNetwork) (tg : Station) (path : List Station)
    (rest : List (Station × List Station)) (vis : List Station) (fuel : Nat) :
    ltLoop net tg ((tg, path) :: rest) vis (fuel + 1) = some (some path) := by
  simp [ltLoop]

/-- A list of naturals all equal to one value is sorted. -/
theorem sorted_of_all_eq {l : List Nat} {a : Nat} (h : ∀ x ∈ l, x = a) :
    List.Sorted (· ≤ ·) l := by
  induction l with
  | nil => simp
  | cons b t ih =>
    rw [List.sorted_cons]
    refine ⟨?_, ih (fun x hx => h x (List.mem_cons_of_mem _ hx))⟩
    intro x hx
    rw [h b (List.mem_cons_self _ _), h x (List.mem_cons_of_mem _ hx)]

/-- Grand correctness lemma of the breadth-first loop: from any state
satisfying `BfsInv` the loop terminates under some fuel, and when the target
is reachable (and distinct from the start) the returned path realises the
minimum possible hop count. -/
theorem bfs_main (net : MetroNetwork) (sa tg : Station) (htg : tg ≠ sa) :
    ∀ (μ1 μ2 : Nat) (P : List Station)
      (queue : List (Station × List Station)) (vis : List Station),
      BfsInv net sa tg P queue vis →
      net.stations.length - vis.length = μ1 → queue.length = μ2 →
      ∃ (fuel : Nat) (r : Option (List Station)),
        ltLoop net tg queue vis fuel = some r ∧
        (Reachable net sa tg →
          ∃ (p q : List Station),
            r = some p ∧ p = sa :: q ∧ (∃ t, Seg net sa q tg t) ∧
            IsLeast {n | ∃ (q2 : List Station) (t2 : Int),
              Seg net sa q2 tg t2 ∧ q2.length = n} q.length) := by
  intro μ1
  induction μ1 using Nat.strong_induction_on with
  | _ μ1 ih1 =>
  intro μ2
  induction μ2 using Nat.strong_induction_on with
  | _ μ2 ih2 =>
  intro P queue vis hinv hμ1 hμ2
  cases queue with
  | nil =>
    refine ⟨1, none, rfl, ?_⟩
    intro hre
    obtain ⟨q, t, hseg⟩ := hre
    exact absurd (bfs_empty_complete net sa tg P vis hinv q.length q tg t rfl hseg)
      hinv.target_new
  | cons hd rest =>
    obtain ⟨cur, path⟩ := hd
    obtain ⟨q0, t0, hpeq, hseg0⟩ :=
      hinv.entries_route (cur, path) (List.mem_cons_self _ _)
    have hpeq2 : path = sa :: q0 := hpeq
    have hlen0 : path.length = q0.length + 1 := by rw [hpeq2]; rfl
    by_cases hct : cur = tg
    · have hseg0' : Seg net sa q0 tg t0 := by rw [hct] at hseg0; exact hseg0
      have hcsa : (cur, path).1 ≠ sa := by
        intro h
        exact htg (hct.symm.trans h)
      refine ⟨1, some path, ?_, ?_⟩
      · rw [hct]
        exact ltLoop_cons_hit net tg path rest vis 0
      · intro _
        refine ⟨path, q0, rfl, hpeq2, ⟨t0, hseg0'⟩, ⟨q0, t0, hseg0', rfl⟩, ?_⟩
        rintro n ⟨q2, t2, hseg2, rfl⟩
        have hmin := hinv.entries_min (cur, path) (List.mem_cons_self _ _) hcsa
          q2 t2 (by rw [hct]; exact hseg2)
        have hmin2 : path.length ≤ q2.length + 1 := hmin
        omega
    · obtain ⟨new, hE1, hE2, hE3, hE4⟩ :=
        enqueueNbrs_spec net path cur.neighbors rest vis
      have hspread := hinv.spread (cur, path) rfl
      have hspread2 : ∀ e ∈ (cur, path) :: rest, e.2.length ≤ path.length + 1 := hspread
      have hfront := hinv.frontier (cur, path) rfl
      have hfront2 : ∀ (w : Station) (q2 : List Station) (t2 : Int),
          Seg net sa q2 w t2 → q2.length + 1 ≤ path.length → w ∈ vis ∨ w = sa := hfront
      have hrest_le : ∀ e ∈ rest, e.2.length ≤ path.length + 1 :=
        fun e he => hspread2 e (List.mem_cons_of_mem _ he)
      have hs' : List.Sorted (· ≤ ·) (path.length :: rest.map (fun e => e.2.length)) := by
        have hs := hinv.sorted
        simpa using hs
      have hsorted_tail := hs'.of_cons
      have hrest_ge : ∀ e ∈ rest, path.length ≤ e.2.length := by
        intro e he
        have h := List.rel_of_sorted_cons hs' _ (List.mem_map_of_mem _ he)
        simpa using h
      have hnew_len : ∀ e ∈ new, e.2.length = path.length + 1 := by
        intro e he
        rw [(hE3 e he).1]
        simp
      have hnodup' : (vis ++ new.map Prod.fst).Nodup := by
        have h := enqueueNbrs_vis_nodup net path cur.neighbors rest vis hinv.vis_nodup
        rw [hE2] at h
        exact h
      have hsd := hinv.start_done (by simp)
      have hexp' : ∀ u ∈ P ++ [cur], ∀ nb ∈ u.neighbors, ∀ st : Station,
          net.getStation nb.1 = some st → st ∈ vis ++ new.map Prod.fst := by
        intro u hu nb hnb st hres
        rcases List.mem_append.mp hu with hu | hu
        · exact List.mem_append_left _ (hinv.expanded u hu nb hnb st hres)
        · rcases List.mem_singleton.mp hu with rfl
          have h := hE4 nb.1 nb.2 st (by simpa using hnb) hres
          rw [hE2] at h
          exact h
      have hinv' : BfsInv net sa tg (P ++ [cur]) (rest ++ new) (vis ++ new.map Prod.fst) := by
        refine ⟨?_, ?_, ?_, ?_, ?_, ?_, ?_, hexp', ?_, ?_, hnodup', ?_⟩
        · intro e he
          rcases List.mem_append.mp he with he | he
          · exact hinv.entries_route e (List.mem_cons_of_mem _ he)
          · obtain ⟨hp2, hnv, w1, hw1, hres1⟩ := hE3 e he
            refine ⟨q0 ++ [e.1], t0 + w1, ?_, Seg.snoc hseg0 hw1 hres1⟩
            rw [hp2, hpeq2]
            rfl
        · intro e he hesa q2 t2 hseg2
          rcases List.mem_append.mp he with he | he
          · exact hinv.entries_min e (List.mem_cons_of_mem _ he) hesa q2 t2 hseg2
          · obtain ⟨hp2, hnv, w1, hw1, hres1⟩ := hE3 e he
            have hlene : e.2.length = path.length + 1 := hnew_len e he
            by_contra hcon
            push_neg at hcon
            rcases hfront2 e.1 q2 t2 hseg2 (by omega) with hv | hv
            · exact hnv hv
            · exact hesa hv
        · intro e he hesa
          rcases List.mem_append.mp he with he | he
          · rcases hinv.entries_start e (List.mem_cons_of_mem _ he) hesa with h | h
            · exact Or.inl h
            · exact Or.inr (List.mem_append_left _ h)
          · refine Or.inr (List.mem_append_right _ ?_)
            rw [← hesa]
            exact List.mem_map_of_mem _ he
        · rw [List.map_append]
          apply List.pairwise_append.mpr
          refine ⟨hsorted_tail, ?_, ?_⟩
          · apply sorted_of_all_eq (a := path.length + 1)
            intro x hx
            obtain ⟨e, he, rfl⟩ := List.mem_map.mp hx
            exact hnew_len e he
          · intro x hx y hy
            obtain ⟨e, he, rfl⟩ := List.mem_map.mp hx
            obtain ⟨e2, he2, rfl⟩ := List.mem_map.mp hy
            have h1 := hrest_le e he
            have h2 := hnew_len e2 he2
            simp only [] at h1 h2 ⊢
            omega
        · intro e0 he0 e he
          have he0mem : e0 ∈ rest ++ new := List.mem_of_mem_head? he0
          have he0len : path.length ≤ e0.2.length := by
            rcases List.mem_append.mp he0mem with h | h
            · exact hrest_ge e0 h
            · rw [hnew_len e0 h]
              omega
          rcases List.mem_append.mp he with h | h
          · have := hrest_le e h
            omega
          · rw [hnew_len e h]
            omega
        · intro e0 he0 w q2 t2 hseg2 hle
          have he0mem : e0 ∈ rest ++ new := List.mem_of_mem_head? he0
          by_cases hsmall : q2.length + 1 ≤ path.length
          · rcases hfront2 w q2 t2 hseg2 hsmall with h | h
            · exact Or.inl (List.mem_append_left _ h)
            · exact Or.inr h
          · have he0le : e0.2.length ≤ path.length + 1 := by
              rcases List.mem_append.mp he0mem with h | h
              · exact hrest_le e0 h
              · rw [hnew_len e0 h]
            have hq2eq : q2.length = path.length := by omega
            have hq2ne : q2 ≠ [] := by
              intro h
              subst h
              simp at hq2eq
              omega
            obtain ⟨q1, pr, t1, w1, hqeq, hseg1, hedge, hres, _⟩ :=
              Seg_snoc_split hseg2 hq2ne
            have hq1len : q1.length + 1 = q2.length := by
              rw [hqeq]
              simp
            have hpr : pr ∈ vis ∨ pr = sa := hfront2 pr q1 t1 hseg1 (by omega)
            have hprP : pr ∈ P ++ [cur] := by
              rcases hpr with hpv | hps
              · rcases hinv.discovered pr (Or.inl hpv) with h | ⟨p2, hp2⟩
                · exact List.mem_append_left _ h
                · rcases List.mem_cons.mp hp2 with heq2 | hmem2
                  · injection heq2 with hh1 hh2
                    subst hh1
                    exact List.mem_append_right _ (List.mem_singleton.mpr rfl)
                  · by_cases hprsa : pr = sa
                    · subst hprsa
                      rcases hsd with ⟨hq, hP, hv⟩ | hsP
                      · rw [hv] at hpv
                        simp at hpv
                      · exact List.mem_append_left _ hsP
                    · have hminp := hinv.entries_min (pr, p2)
                        (List.mem_cons_of_mem _ hmem2) hprsa q1 t1 hseg1
                      have hminp2 : p2.length ≤ q1.length + 1 := hminp
                      have he0len2 : e0.2.length = path.length + 1 := by omega
                      cases hre : rest with
                      | nil =>
                        rw [hre] at hmem2
                        simp at hmem2
                      | cons r1 rtail =>
                        have he0r1 : r1 = e0 := by
                          rw [hre] at he0
                          simpa using Option.mem_def.mp he0
                        have hp2big : path.length + 1 ≤ p2.length := by
                          rw [hre] at hmem2
                          rcases List.mem_cons.mp hmem2 with heq3 | hmem3
                          · have hq : (pr, p2).2.length = e0.2.length := by
                              rw [heq3, he0r1]
                            simp at hq
                            omega
                          · have hsr := hsorted_tail
                            rw [hre] at hsr
                            have hrel := List.rel_of_sorted_cons hsr p2.length
                              (List.mem_map_of_mem _ hmem3)
                            rw [he0r1] at hrel
                            have hrel2 : e0.2.length ≤ p2.length := hrel
                            omega
                        exact absurd hminp2 (by omega)
              · rcases hsd with ⟨hq, hP, hv⟩ | hsP
                · injection hq with hh1 hh2
                  injection hh1 with hc hp
                  rw [hps, ← hc]
                  exact List.mem_append_right _ (List.mem_singleton.mpr rfl)
                · rw [hps]
                  exact List.mem_append_left _ hsP
            exact Or.inl (hexp' pr hprP (w.idx, w1) hedge w hres)
        · intro w hw
          rcases hw with hw | hw
          · rcases List.mem_append.mp hw with hv | hv
            · rcases hinv.discovered w (Or.inl hv) with h | ⟨p2, hp2⟩
              · exact Or.inl (List.mem_append_left _ h)
              · rcases List.mem_cons.mp hp2 with heq2 | hmem2
                · injection heq2 with hh1 hh2
                  subst hh1
                  exact Or.inl (List.mem_append_right _ (List.mem_singleton.mpr rfl))
                · exact Or.inr ⟨p2, List.mem_append_left _ hmem2⟩
            · obtain ⟨e, he, rfl⟩ := List.mem_map.mp hv
              refine Or.inr ⟨e.2, ?_⟩
              rw [Prod.mk.eta]
              exact List.mem_append_right _ he
          · subst hw
            rcases hinv.discovered w (Or.inr rfl) with h | ⟨p2, hp2⟩
            · exact Or.inl (List.mem_append_left _ h)
            · rcases List.mem_cons.mp hp2 with heq2 | hmem2
              · injection heq2 with hh1 hh2
                subst hh1
                exact Or.inl (List.mem_append_right _ (List.mem_singleton.mpr rfl))
              · exact Or.inr ⟨p2, List.mem_append_left _ hmem2⟩
        · intro hcon
          rcases List.mem_append.mp hcon with h | h
          · exact hinv.target_new h
          · exact hct (List.mem_singleton.mp h).symm
        · intro _
          rcases hsd with ⟨hq, hP, hv⟩ | hsP
          · injection hq with hh1 hh2
            injection hh1 with hc hp
            rw [← hc]
            exact Or.inr (List.mem_append_right _ (List.mem_singleton.mpr rfl))
          · exact Or.inr (List.mem_append_left _ hsP)
        · intro v hv
          rcases List.mem_append.mp hv with h | h
          · exact hinv.vis_mem v h
          · obtain ⟨e, he, rfl⟩ := List.mem_map.mp h
            obtain ⟨_, _, w1, _, hres1⟩ := hE3 e he
            exact (getStation_mem hres1).1
      have hμ2' : rest.length + 1 = μ2 := by simpa using hμ2
      by_cases hnew : new = []
      · subst hnew
        rw [List.append_nil] at hinv'
        simp only [List.map_nil, List.append_nil] at hinv'
        obtain ⟨fuel, r, hrun, hopt⟩ := ih2 rest.length (by omega)
          (P ++ [cur]) rest vis hinv' hμ1 rfl
        refine ⟨fuel + 1, r, ?_, hopt⟩
        rw [ltLoop_cons_step net tg cur path rest vis fuel hct, hE1, hE2]
        simpa using hrun
      · have hpos : 0 < new.length := List.length_pos.mpr hnew
        have hgrow : vis.length < (vis ++ new.map Prod.fst).length := by
          rw [List.length_append, List.length_map]
          omega
        have hbound : (vis ++ new.map Prod.fst).length ≤ net.stations.length :=
          nodup_subset_length hinv'.vis_nodup hinv'.vis_mem
        obtain ⟨fuel, r, hrun, hopt⟩ :=
          ih1 (net.stations.length - (vis ++ new.map Prod.fst).length) (by omega)
            (rest ++ new).length (P ++ [cur]) (rest ++ new)
            (vis ++ new.map Prod.fst) hinv' rfl rfl
        refine ⟨fuel + 1, r, ?_, hopt⟩
        rw [ltLoop_cons_step net tg cur path rest vis fuel hct, hE1, hE2]
        exact hrun

/-- C2: for every network and every pair of valid stop ids `(a, b)` whose
target station is reachable from the start station, `find_least_transfers`
(run with enough fuel for the Python loop to finish) returns a path from
start to target whose edge count is least among all walks from the start
station to the target station — the graph-theoretic shortest hop distance. -/
theorem C2_bfs_fewest_hops (net : MetroNetwork) (a b : String) (sa tg : Station)
    (ha : net.getStation a = some sa) (hb : net.getStation b = some tg)
    (hreach : Reachable net sa tg) :
    ∃ (fuel : Nat) (p q : List Station),
      net.find_least_transfers a b fuel = some (some p) ∧ p = sa :: q ∧
      (∃ t, Seg net sa q tg t) ∧
      IsLeast {n | ∃ (q2 : List Station) (t2 : Int),
        Seg net sa q2 tg t2 ∧ q2.length = n} q.length := by
  by_cases htg : tg = sa
  · refine ⟨1, [sa], [], ?_, rfl, ⟨0, by rw [htg]; exact Seg.nil sa⟩,
      ⟨[], 0, by rw [htg]; exact Seg.nil sa, rfl⟩, fun n _ => Nat.zero_le n⟩
    simp only [MetroNetwork.find_least_transfers, ha, hb]
    rw [htg]
    exact ltLoop_cons_hit net sa [sa] [] [] 0
  · have hinv0 : BfsInv net sa tg [] [(sa, [sa])] [] := by
      refine ⟨?_, ?_, ?_, ?_, ?_, ?_, ?_, ?_, ?_, ?_, ?_, ?_⟩
      · intro e he
        rcases List.mem_singleton.mp he with rfl
        exact ⟨[], 0, rfl, Seg.nil sa⟩
      · intro e he hesa
        rcases List.mem_singleton.mp he with rfl
        exact absurd rfl hesa
      · intro e he _
        rcases List.mem_singleton.mp he with rfl
        exact Or.inl rfl
      · simp
      · intro e0 he0 e he
        rcases List.mem_singleton.mp he with rfl
        have he0' : e0 = (sa, [sa]) := by
          have h := Option.mem_def.mp he0
          simp at h
          exact h.symm
        rw [he0']
        exact Nat.le_succ _
      · intro e0 he0 w q2 t2 hseg2 hle
        have he0' : e0 = (sa, [sa]) := by
          have h := Option.mem_def.mp he0
          simp at h
          exact h.symm
        rw [he0'] at hle
        have hl2 : q2.length + 1 ≤ 1 := hle
        have hq2 : q2 = [] := by
          cases q2 with
          | nil => rfl
          | cons x xs => exfalso; simp at hl2
        subst hq2
        obtain ⟨rfl, rfl⟩ := Seg_nil_inv hseg2
        exact Or.inr rfl
      · intro w hw
        rcases hw with hw | hw
        · simp at hw
        · refine Or.inr ⟨[sa], ?_⟩
          rw [hw]
          exact List.mem_singleton.mpr rfl
      · intro u hu
        simp at hu
      · simp
      · intro _
        exact Or.inl ⟨rfl, rfl, rfl⟩
      · exact List.nodup_nil
      · intro v hv
        simp at hv
    obtain ⟨fuel, r, hrun, hopt⟩ := bfs_main net sa tg htg
      net.stations.length 1 [] [(sa, [sa])] [] hinv0 rfl rfl
    obtain ⟨p, q, hr, hpq, hex, hleast⟩ := hopt hreach
    refine ⟨fuel, p, q, ?_, hpq, hex, hleast⟩
    simp only [MetroNetwork.find_least_transfers, ha, hb]
    rw [hrun, hr]

/-- Concrete instantiation of `C2_bfs_fewest_hops` on `netLine` (`A — B`). -/
theorem C2_bfs_fewest_hops_witness :
    Reachable netLine lineA lineB ∧
    (∃ (fuel : Nat) (p q : List Station),
      netLine.find_least_transfers "A" "B" fuel = some (some p) ∧ p = lineA :: q ∧
      (∃ t, Seg netLine lineA q lineB t) ∧
      IsLeast {n | ∃ (q2 : List Station) (t2 : Int),
        Seg netLine lineA q2 lineB t2 ∧ q2.length = n} q.length) := by
  have hre : Reachable netLine lineA lineB :=
    ⟨[lineB], 1 + 0, @Seg.cons netLine lineA lineB lineB [] 1 0
      (by decide) (by decide) (Seg.nil lineB)⟩
  exact ⟨hre, C2_bfs_fewest_hops netLine "A" "B" lineA lineB
    (by decide) (by decide) hre⟩

/-! ## Walk weight and membership facts -/

/-- Walks starting at a station of the network end at a station of the
network (intermediate nodes come out of the station map). -/
theorem Seg_end_mem {net : MetroNetwork} {b : Station} {q : List Station}
    {v : Station} {t : Int} (h : Seg net b q v t) :
    b ∈ net.stations → v ∈ net.stations := by
  induction h with
  | nil b => exact fun hb => hb
  | cons he hres hsub ih => exact fun _ => ih (getStation_mem hres).1

/-- On a network with non-negative edge weights, walks from a station of the
network have non-negative total weight. -/
theorem Seg_nonneg {net : MetroNetwork} (hnn : net.NonNeg) {b : Station}
    {q : List Station} {v : Station} {t : Int} (h : Seg net b q v t) :
    b ∈ net.stations → 0 ≤ t := by
  induction h with
  | nil b => exact fun _ => le_refl 0
  | @cons b0 c d q0 w v0 he hres hsub ih =>
    intro hb
    have hw : (0 : Int) ≤ w := hnn b0 hb (c.idx, w) he
    have hv := ih (getStation_mem hres).1
    omega

/-- The first component of the key order bounds the entry times. -/
theorem keyLe_time {e1 e2 : QEntry} (h : keyLe (qkey e1) (qkey e2)) :
    e1.time ≤ e2.time := by
  rcases h with h | ⟨h, _⟩
  · exact le_of_lt h
  · exact le_of_eq h

/-! ## Lookup and assignment facts for the shortest-time dict -/

/-- Lookup skips a binding with a different key. -/
theorem dlookup_cons_ne {p : Station × Int} {z : Station}
    (ps : List (Station × Int)) (h : ¬ p.1 = z) :
    dlookup (p :: ps) z = dlookup ps z := by
  unfold dlookup
  rw [List.find?_cons_of_neg _ (by simpa using h)]

/-- Lookup hits the first binding with a matching key. -/
theorem dlookup_cons_eq {p : Station × Int} {z : Station}
    (ps : List (Station × Int)) (h : p.1 = z) :
    dlookup (p :: ps) z = some p.2 := by
  unfold dlookup
  rw [List.find?_cons_of_pos _ (by simpa using h)]
  rfl

/-- Assignment commutes with a head binding of a different key. -/
theorem dinsert_cons_ne (p : Station × Int) (ps : List (Station × Int))
    (s : Station) (v : Int) (h : ¬ p.1 = s) :
    dinsert (p :: ps) s v = p :: dinsert ps s v := by
  unfold dinsert
  rw [List.find?_cons_of_neg _ (by simpa using h)]
  by_cases h2 : (ps.find? (fun q => q.1 = s)).isSome
  · rw [if_pos h2, if_pos h2, List.map_cons, if_neg h]
  · rw [if_neg h2, if_neg h2]
    rfl

/-- Assignment rewrites a head binding with the matching key in place. -/
theorem dinsert_cons_eq (p : Station × Int) (ps : List (Station × Int))
    (s : Station) (v : Int) (h : p.1 = s) :
    dinsert (p :: ps) s v
      = (p.1, v) :: ps.map (fun q => if q.1 = s then (q.1, v) else q) := by
  unfold dinsert
  rw [List.find?_cons_of_pos _ (by simpa using h)]
  simp only [Option.isSome_some, if_true, List.map_cons, if_pos h]

/-- Reading back the key just assigned yields the assigned value. -/
theorem dlookup_dinsert_self (s : Station) (v : Int) :
    ∀ st : List (Station × Int), dlookup (dinsert st s v) s = some v := by
  intro st
  induction st with
  | nil =>
    unfold dinsert
    rw [if_neg (by simp)]
    rw [List.nil_append, dlookup_cons_eq [] rfl]
  | cons p ps ih =>
    by_cases hp : p.1 = s
    · rw [dinsert_cons_eq p ps s v hp]
      rw [@dlookup_cons_eq (p.1, v) s
        (ps.map (fun q => if q.1 = s then (q.1, v) else q)) hp]
    · rw [dinsert_cons_ne p ps s v hp, dlookup_cons_ne _ hp]
      exact ih

/-- Assigning one key leaves lookups of every other key unchanged. -/
theorem dlookup_dinsert_ne (s z : Station) (v : Int) (h : z ≠ s) :
    ∀ st : List (Station × Int), dlookup (dinsert st s v) z = dlookup st z := by
  have haux : ∀ ps : List (Station × Int),
      dlookup (ps.map (fun q => if q.1 = s then (q.1, v) else q)) z = dlookup ps z := by
    intro ps
    induction ps with
    | nil => rfl
    | cons q qs ih =>
      rw [List.map_cons]
      by_cases hq : q.1 = s
      · rw [if_pos hq]
        rw [@dlookup_cons_ne (q.1, v) z
            (qs.map (fun r => if r.1 = s then (r.1, v) else r)) (fun hh => h (hh.symm.trans hq)),
          @dlookup_cons_ne q z qs (fun hh => h (hh.symm.trans hq))]
        exact ih
      · rw [if_neg hq]
        by_cases hz : q.1 = z
        · rw [dlookup_cons_eq _ hz, dlookup_cons_eq _ hz]
        · rw [dlookup_cons_ne _ hz, dlookup_cons_ne _ hz]
          exact ih
  intro st
  induction st with
  | nil =>
    unfold dinsert
    rw [if_neg (by simp)]
    rw [List.nil_append, dlookup_cons_ne _ (fun hh => h hh.symm)]
  | cons p ps ih =>
    by_cases hp : p.1 = s
    · rw [dinsert_cons_eq p ps s v hp]
      rw [@dlookup_cons_ne (p.1, v) z
          (ps.map (fun q => if q.1 = s then (q.1, v) else q)) (fun hh => h (hh.symm.trans hp)),
        @dlookup_cons_ne p z ps (fun hh => h (hh.symm.trans hp))]
      exact haux ps
    · rw [dinsert_cons_ne p ps s v hp]
      by_cases hz : p.1 = z
      · rw [dlookup_cons_eq _ hz, dlookup_cons_eq _ hz]
      · rw [dlookup_cons_ne _ hz, dlookup_cons_ne _ hz]
        exact ih

/-- Keys present after an assignment: the assigned key or a key of the old
dict. -/
theorem dinsert_mem {st : List (Station × Int)} {s : Station} {v : Int} :
    ∀ sd ∈ dinsert st s v, sd.1 = s ∨ ∃ p ∈ st, sd.1 = p.1 := by
  intro sd hsd
  unfold dinsert at hsd
  by_cases h : (st.find? (fun p => p.1 = s)).isSome
  · rw [if_pos h] at hsd
    obtain ⟨p, hp, heq⟩ := List.mem_map.mp hsd
    by_cases h2 : p.1 = s
    · rw [if_pos h2] at heq
      refine Or.inl ?_
      rw [← heq]
      exact h2
    · rw [if_neg h2] at heq
      exact Or.inr ⟨p, hp, by rw [← heq]⟩
  · rw [if_neg h] at hsd
    rcases List.mem_append.mp hsd with h2 | h2
    · exact Or.inr ⟨sd, h2, rfl⟩
    · rcases List.mem_singleton.mp h2 with rfl
      exact Or.inl rfl

/-- Assigning an already present key keeps the dict size. -/
theorem dinsert_length_some (st : List (Station × Int)) (s : Station)
    (v d : Int) (h : dlookup st s = some d) :
    (dinsert st s v).length = st.length := by
  have h2 : (st.find? (fun p => p.1 = s)).isSome = true := by
    unfold dlookup at h
    cases hf : st.find? (fun p => p.1 = s) with
    | none => rw [hf] at h; exact absurd h (by simp)
    | some p => simp
  unfold dinsert
  rw [if_pos h2]
  exact List.length_map _ _

/-- Assigning a fresh key grows the dict by one binding. -/
theorem dinsert_length_none (st : List (Station × Int)) (s : Station)
    (v : Int) (h : dlookup st s = none) :
    (dinsert st s v).length = st.length + 1 := by
  have h2 : ¬ (st.find? (fun p => p.1 = s)).isSome = true := by
    unfold dlookup at h
    cases hf : st.find? (fun p => p.1 = s) with
    | none => simp
    | some p => rw [hf] at h; exact absurd h (by simp)
  unfold dinsert
  rw [if_neg h2]
  simp

/-- Assignment preserves distinctness of the keys. -/
theorem dinsert_nodup (st : List (Station × Int)) (s : Station) (v : Int)
    (h : (st.map Prod.fst).Nodup) : ((dinsert st s v).map Prod.fst).Nodup := by
  unfold dinsert
  by_cases h2 : (st.find? (fun p => p.1 = s)).isSome
  · rw [if_pos h2]
    have : (st.map (fun p => if p.1 = s then (p.1, v) else p)).map Prod.fst
        = st.map Prod.fst := by
      rw [List.map_map]
      apply List.map_congr_left
      intro p _
      by_cases hp : p.1 = s
      · rw [Function.comp_apply, if_pos hp]
      · rw [Function.comp_apply, if_neg hp]
    rw [this]
    exact h
  · rw [if_neg h2]
    rw [List.map_append]
    have hfind : st.find? (fun p => p.1 = s) = none := by
      cases hf : st.find? (fun p => p.1 = s) with
      | none => rfl
      | some p => rw [hf] at h2; exact absurd rfl h2
    have hs_not : s ∉ st.map Prod.fst := by
      intro hmem
      obtain ⟨p, hp, hps⟩ := List.mem_map.mp hmem
      have := List.find?_eq_none.mp hfind p hp
      simp only [decide_eq_true_eq] at this
      exact this hps
    simp only [List.map_cons, List.map_nil]
    exact List.Nodup.append h (List.nodup_singleton s) (by
      intro x hx hx2
      rcases List.mem_singleton.mp hx2 with rfl
      exact hs_not hx)

/-- Improving an existing non-negative label strictly decreases the dict
mass. -/
theorem stW_dinsert_lt (s : Station) (v old : Int) (hv0 : 0 ≤ v)
    (hlt : v < old) :
    ∀ st : List (Station × Int), (st.map Prod.fst).Nodup →
      dlookup st s = some old → stW (dinsert st s v) < stW st := by
  intro st
  induction st with
  | nil =>
    intro _ h
    exact absurd h (by simp [dlookup])
  | cons p ps ih =>
    intro hnd h
    have hnd' : (p.1 :: ps.map Prod.fst).Nodup := by
      rw [List.map_cons] at hnd
      exact hnd
    by_cases hp : p.1 = s
    · rw [dinsert_cons_eq p ps s v hp]
      have hs_not : s ∉ ps.map Prod.fst := by
        have h2 := (List.nodup_cons.mp hnd').1
        rw [hp] at h2
        exact h2
      have hmap_id : ps.map (fun q => if q.1 = s then (q.1, v) else q) = ps := by
        have hcg : ∀ q ∈ ps, (if q.1 = s then (q.1, v) else q) = q := by
          intro q hq
          refine if_neg ?_
          intro hh
          exact hs_not (hh ▸ List.mem_map_of_mem Prod.fst hq)
        calc ps.map (fun q => if q.1 = s then (q.1, v) else q)
            = ps.map id := List.map_congr_left hcg
          _ = ps := List.map_id ps
      rw [hmap_id]
      have hval : p.2 = old := by
        rw [dlookup_cons_eq ps hp] at h
        exact Option.some.inj h
      unfold stW
      simp only [List.map_cons, List.sum_cons]
      rw [hval]
      have hto : v.toNat < old.toNat := by omega
      omega
    · rw [dinsert_cons_ne p ps s v hp]
      rw [dlookup_cons_ne ps hp] at h
      have hnd2 : (ps.map Prod.fst).Nodup := (List.nodup_cons.mp hnd').2
      unfold stW
      simp only [List.map_cons, List.sum_cons]
      have hrec := ih hnd2 h
      unfold stW at hrec
      omega

/-- `heappop` on a non-empty heap never reports emptiness. -/
theorem heappop_cons_some (cmp : QEntry → QEntry → Except Unit Bool)
    (x : QEntry) (xs : List QEntry) :
    heappop cmp (x :: xs) = Except.ok none → False := by
  intro h
  unfold heappop at h
  cases hl : (x :: xs).getLast? with
  | none => exact absurd hl (by simp)
  | some l =>
    cases hd : (x :: xs).dropLast with
    | nil =>
      simp only [hl, hd] at h
      exact absurd h (by simp)
    | cons r0 rest =>
      simp only [hl, hd] at h
      cases hs : siftup cmp l (r0 :: rest) 0 with
      | error e =>
        simp only [hs] at h
        exact absurd h (by simp)
      | ok h2 =>
        simp only [hs] at h
        exact absurd h (by simp)

/-- Complete effect description of one neighbour-relaxation pass of
`find_fastest_route` (the `for neighbor, time in ...` loop), for a popped
entry realising time `t` by a genuine walk: soundness of all heap entries and
labels is preserved, labels only improve, the heap only grows, changed labels
keep a pending entry, every processed neighbour ends up labelled at most
`t + w`, and either the dict gains a key, or its mass strictly drops, or
nothing at all changed. -/
theorem relaxAll_effects (net : MetroNetwork) (sa tg ce : Station) (t : Int)
    (path : List Station) (hnn : net.NonNeg) (hsa : sa ∈ net.stations)
    (hreal : ∃ q, path = sa :: q ∧ Seg net sa q ce t) :
    ∀ (nbrs : List (String × Int)) (pq : List QEntry) (st : List (Station × Int))
      (pq2 : List QEntry) (st2 : List (Station × Int)),
      (∀ p ∈ nbrs, p ∈ ce.neighbors) →
      (∀ en ∈ pq, ∃ q, en.path = sa :: q ∧ Seg net sa q en.st en.time) →
      (∀ (z : Station) (d : Int), dlookup st z = some d → ∃ q, Seg net sa q z d) →
      (st.map Prod.fst).Nodup →
      (∀ sd ∈ st, sd.1 ∈ net.stations) →
      (∀ en ∈ pq, ∃ d, dlookup st en.st = some d ∧ d ≤ en.time) →
      IsHeap pq →
      relaxAll net tg t path nbrs pq st = Except.ok (pq2, st2) →
      ((∀ en ∈ pq2, ∃ q, en.path = sa :: q ∧ Seg net sa q en.st en.time) ∧
       (∀ (z : Station) (d : Int), dlookup st2 z = some d → ∃ q, Seg net sa q z d) ∧
       (st2.map Prod.fst).Nodup ∧
       (∀ sd ∈ st2, sd.1 ∈ net.stations) ∧
       (∀ en ∈ pq2, ∃ d, dlookup st2 en.st = some d ∧ d ≤ en.time) ∧
       IsHeap pq2 ∧
       (∀ (z : Station) (d : Int), dlookup st z = some d →
         ∃ d2, dlookup st2 z = some d2 ∧ d2 ≤ d) ∧
       (∀ en ∈ pq, en ∈ pq2) ∧
       (∀ (z : Station) (d2 : Int), dlookup st2 z = some d2 →
         dlookup st z = some d2 ∨ ∃ en ∈ pq2, en.st = z ∧ en.time ≤ d2) ∧
       (∀ nw ∈ nbrs, ∀ nb : Station, net.getStation nw.1 = some nb →
         ∃ d2, dlookup st2 nb = some d2 ∧ d2 ≤ t + nw.2) ∧
       (st.length < st2.length ∨ (st.length = st2.length ∧ stW st2 < stW st) ∨
         (pq2 = pq ∧ st2 = st))) := by
  intro nbrs
  induction nbrs with
  | nil =>
    intro pq st pq2 st2 hsub h1 h2 h3 h4 h5 h6 heq
    have heq2 : (Except.ok (pq, st) : Except Unit (List QEntry × List (Station × Int)))
        = Except.ok (pq2, st2) := heq
    injection heq2 with heq3
    injection heq3 with ha hb
    subst ha
    subst hb
    refine ⟨h1, h2, h3, h4, h5, h6, ?_, fun en he => he, ?_, ?_, Or.inr (Or.inr ⟨rfl, rfl⟩)⟩
    · exact fun z d hd => ⟨d, hd, le_refl d⟩
    · exact fun z d2 hd2 => Or.inl hd2
    · intro nw hnw
      exact absurd hnw (by simp)
  | cons nb0 rest ih =>
    rcases nb0 with ⟨nid, w⟩
    intro pq st pq2 st2 hsub h1 h2 h3 h4 h5 h6 heq
    cases hg : net.getStation nid with
    | none =>
      have hstep : relaxAll net tg t path ((nid, w) :: rest) pq st
          = relaxAll net tg t path rest pq st := by
        simp [relaxAll, hg]
      rw [hstep] at heq
      obtain ⟨o1, o2, o3, o4, o5, o6, o7, o8, o10, o11, o12⟩ :=
        ih pq st pq2 st2 (fun p hp => hsub p (List.mem_cons_of_mem _ hp))
          h1 h2 h3 h4 h5 h6 heq
      refine ⟨o1, o2, o3, o4, o5, o6, o7, o8, o10, ?_, o12⟩
      intro nw hnw nb hres
      rcases List.mem_cons.mp hnw with rfl | hnw2
      · rw [hg] at hres
        exact absurd hres (by simp)
      · exact o11 nw hnw2 nb hres
    | some nb =>
      have hidx : nb.idx = nid := (getStation_mem hg).2
      have hedge : (nb.idx, w) ∈ ce.neighbors := by
        rw [hidx]
        exact hsub (nid, w) (List.mem_cons_self _ _)
      have hres2 : net.getStation nb.idx = some nb := by
        rw [hidx]
        exact hg
      obtain ⟨q0, hq0, hseg0⟩ := hreal
      have hxseg : Seg net sa (q0 ++ [nb]) nb (t + w) := Seg.snoc hseg0 hedge hres2
      have hxpath : path ++ [nb] = sa :: (q0 ++ [nb]) := by
        rw [hq0]
        rfl
      have hxnn : (0 : Int) ≤ t + w := Seg_nonneg hnn hxseg hsa
      cases hlk : dlookup st nb with
      | none =>
        cases hpush : heappush entLtE pq ⟨t + w, hsq nb tg, nb, path ++ [nb]⟩ with
        | error e =>
          have hstep : relaxAll net tg t path ((nid, w) :: rest) pq st
              = Except.error e := by
            simp [relaxAll, hg, hlk, hpush]
          rw [hstep] at heq
          exact absurd heq (by simp)
        | ok pq' =>
          have hstep : relaxAll net tg t path ((nid, w) :: rest) pq st
              = relaxAll net tg t path rest pq' (dinsert st nb (t + w)) := by
            simp [relaxAll, hg, hlk, hpush]
          rw [hstep] at heq
          have hperm := heappush_perm entLtE pq _ pq' hpush
          have hxmem : (⟨t + w, hsq nb tg, nb, path ++ [nb]⟩ : QEntry) ∈ pq' := by
            rw [hperm.mem_iff]
            exact List.mem_append_right _ (List.mem_singleton.mpr rfl)
          have hmem' : ∀ en ∈ pq, en ∈ pq' := by
            intro en he
            rw [hperm.mem_iff]
            exact List.mem_append_left _ he
          have i1 : ∀ en ∈ pq', ∃ q, en.path = sa :: q ∧ Seg net sa q en.st en.time := by
            intro en he
            rw [hperm.mem_iff] at he
            rcases List.mem_append.mp he with he | he
            · exact h1 en he
            · rcases List.mem_singleton.mp he with rfl
              exact ⟨q0 ++ [nb], hxpath, hxseg⟩
          have i2 : ∀ (z : Station) (d : Int),
              dlookup (dinsert st nb (t + w)) z = some d → ∃ q, Seg net sa q z d := by
            intro z d hd
            by_cases hz : z = nb
            · rw [hz, dlookup_dinsert_self] at hd
              rcases Option.some.inj hd with rfl
              rw [hz]
              exact ⟨q0 ++ [nb], hxseg⟩
            · rw [dlookup_dinsert_ne nb z (t + w) hz] at hd
              exact h2 z d hd
          have i3 := dinsert_nodup st nb (t + w) h3
          have i4 : ∀ sd ∈ dinsert st nb (t + w), sd.1 ∈ net.stations := by
            intro sd hsd
            rcases dinsert_mem sd hsd with hk | ⟨p, hp, hk⟩
            · rw [hk]
              exact (getStation_mem hg).1
            · rw [hk]
              exact h4 p hp
          have i5 : ∀ en ∈ pq', ∃ d, dlookup (dinsert st nb (t + w)) en.st = some d
              ∧ d ≤ en.time := by
            intro en he
            rw [hperm.mem_iff] at he
            rcases List.mem_append.mp he with he | he
            · obtain ⟨d, hd, hle⟩ := h5 en he
              by_cases hz : en.st = nb
              · rw [hz] at hd
                rw [hlk] at hd
                exact absurd hd (by simp)
              · rw [dlookup_dinsert_ne nb en.st (t + w) hz]
                exact ⟨d, hd, hle⟩
            · rcases List.mem_singleton.mp he with rfl
              exact ⟨t + w, dlookup_dinsert_self nb (t + w) st, le_refl _⟩
          have i6 := heappush_isHeap pq _ pq' h6 hpush
          obtain ⟨o1, o2, o3, o4, o5, o6, o7, o8, o10, o11, o12⟩ :=
            ih pq' (dinsert st nb (t + w)) pq2 st2
              (fun p hp => hsub p (List.mem_cons_of_mem _ hp)) i1 i2 i3 i4 i5 i6 heq
          refine ⟨o1, o2, o3, o4, o5, o6, ?_, ?_, ?_, ?_, ?_⟩
          · intro z d hd
            have hz : z ≠ nb := by
              intro hzz
              rw [hzz, hlk] at hd
              exact absurd hd (by simp)
            exact o7 z d (by rw [dlookup_dinsert_ne nb z (t + w) hz]; exact hd)
          · exact fun en he => o8 en (hmem' en he)
          · intro z d2 hd2
            rcases o10 z d2 hd2 with hold | hpend
            · by_cases hz : z = nb
              · rw [hz, dlookup_dinsert_self] at hold
                rcases Option.some.inj hold with rfl
                rw [hz]
                exact Or.inr ⟨⟨t + w, hsq nb tg, nb, path ++ [nb]⟩,
                  o8 _ hxmem, rfl, le_refl _⟩
              · rw [dlookup_dinsert_ne nb z (t + w) hz] at hold
                exact Or.inl hold
            · exact Or.inr hpend
          · intro nw hnw nbx hresx
            rcases List.mem_cons.mp hnw with rfl | hnw2
            · rw [hg] at hresx
              rcases Option.some.inj hresx with rfl
              obtain ⟨d2, hd2, hle2⟩ := o7 nb (t + w) (dlookup_dinsert_self _ _ _)
              exact ⟨d2, hd2, hle2⟩
            · exact o11 nw hnw2 nbx hresx
          · have hlen : (dinsert st nb (t + w)).length = st.length + 1 :=
              dinsert_length_none st nb (t + w) hlk
            rcases o12 with h12 | ⟨h12a, _⟩ | ⟨_, h12b⟩
            · exact Or.inl (by omega)
            · exact Or.inl (by omega)
            · exact Or.inl (by rw [h12b, hlen]; omega)
      | some old =>
        by_cases hcmp : t + w < old
        · cases hpush : heappush entLtE pq ⟨t + w, hsq nb tg, nb, path ++ [nb]⟩ with
          | error e =>
            have hstep : relaxAll net tg t path ((nid, w) :: rest) pq st
                = Except.error e := by
              simp [relaxAll, hg, hlk, hcmp, hpush]
            rw [hstep] at heq
            exact absurd heq (by simp)
          | ok pq' =>
            have hstep : relaxAll net tg t path ((nid, w) :: rest) pq st
                = relaxAll net tg t path rest pq' (dinsert st nb (t + w)) := by
              simp [relaxAll, hg, hlk, hcmp, hpush]
            rw [hstep] at heq
            have hperm := heappush_perm entLtE pq _ pq' hpush
            have hxmem : (⟨t + w, hsq nb tg, nb, path ++ [nb]⟩ : QEntry) ∈ pq' := by
              rw [hperm.mem_iff]
              exact List.mem_append_right _ (List.mem_singleton.mpr rfl)
            have hmem' : ∀ en ∈ pq, en ∈ pq' := by
              intro en he
              rw [hperm.mem_iff]
              exact List.mem_append_left _ he
            have i1 : ∀ en ∈ pq', ∃ q, en.path = sa :: q ∧ Seg net sa q en.st en.time := by
              intro en he
              rw [hperm.mem_iff] at he
              rcases List.mem_append.mp he with he | he
              · exact h1 en he
              · rcases List.mem_singleton.mp he with rfl
                exact ⟨q0 ++ [nb], hxpath, hxseg⟩
            have i2 : ∀ (z : Station) (d : Int),
                dlookup (dinsert st nb (t + w)) z = some d → ∃ q, Seg net sa q z d := by
              intro z d hd
              by_cases hz : z = nb
              · rw [hz, dlookup_dinsert_self] at hd
                rcases Option.some.inj hd with rfl
                rw [hz]
                exact ⟨q0 ++ [nb], hxseg⟩
              · rw [dlookup_dinsert_ne nb z (t + w) hz] at hd
                exact h2 z d hd
            have i3 := dinsert_nodup st nb (t + w) h3
            have i4 : ∀ sd ∈ dinsert st nb (t + w), sd.1 ∈ net.stations := by
              intro sd hsd
              rcases dinsert_mem sd hsd with hk | ⟨p, hp, hk⟩
              · rw [hk]
                exact (getStation_mem hg).1
              · rw [hk]
                exact h4 p hp
            have i5 : ∀ en ∈ pq', ∃ d, dlookup (dinsert st nb (t + w)) en.st = some d
                ∧ d ≤ en.time := by
              intro en he
              rw [hperm.mem_iff] at he
              rcases List.mem_append.mp he with he | he
              · obtain ⟨d, hd, hle⟩ := h5 en he
                by_cases hz : en.st = nb
                · rw [hz] at hd
                  rw [hlk] at hd
                  rcases Option.some.inj hd with rfl
                  refine ⟨t + w, ?_, by omega⟩
                  rw [hz]
                  exact dlookup_dinsert_self nb (t + w) st
                · rw [dlookup_dinsert_ne nb en.st (t + w) hz]
                  exact ⟨d, hd, hle⟩
              · rcases List.mem_singleton.mp he with rfl
                exact ⟨t + w, dlookup_dinsert_self nb (t + w) st, le_refl _⟩
            have i6 := heappush_isHeap pq _ pq' h6 hpush
            obtain ⟨o1, o2, o3, o4, o5, o6, o7, o8, o10, o11, o12⟩ :=
              ih pq' (dinsert st nb (t + w)) pq2 st2
                (fun p hp => hsub p (List.mem_cons_of_mem _ hp)) i1 i2 i3 i4 i5 i6 heq
            refine ⟨o1, o2, o3, o4, o5, o6, ?_, ?_, ?_, ?_, ?_⟩
            · intro z d hd
              by_cases hz : z = nb
              · rw [hz, hlk] at hd
                rcases Option.some.inj hd with rfl
                obtain ⟨d2, hd2, hle2⟩ := o7 nb (t + w) (dlookup_dinsert_self _ _ _)
                rw [hz]
                exact ⟨d2, hd2, by omega⟩
              · exact o7 z d (by rw [dlookup_dinsert_ne nb z (t + w) hz]; exact hd)
            · exact fun en he => o8 en (hmem' en he)
            · intro z d2 hd2
              rcases o10 z d2 hd2 with hold | hpend
              · by_cases hz : z = nb
                · rw [hz, dlookup_dinsert_self] at hold
                  rcases Option.some.inj hold with rfl
                  rw [hz]
                  exact Or.inr ⟨⟨t + w, hsq nb tg, nb, path ++ [nb]⟩,
                    o8 _ hxmem, rfl, le_refl _⟩
                · rw [dlookup_dinsert_ne nb z (t + w) hz] at hold
                  exact Or.inl hold
              · exact Or.inr hpend
            · intro nw hnw nbx hresx
              rcases List.mem_cons.mp hnw with rfl | hnw2
              · rw [hg] at hresx
                rcases Option.some.inj hresx with rfl
                obtain ⟨d2, hd2, hle2⟩ := o7 nb (t + w) (dlookup_dinsert_self _ _ _)
                exact ⟨d2, hd2, hle2⟩
              · exact o11 nw hnw2 nbx hresx
            · have hlen : (dinsert st nb (t + w)).length = st.length :=
                dinsert_length_some st nb (t + w) old hlk
              have hW : stW (dinsert st nb (t + w)) < stW st :=
                stW_dinsert_lt nb (t + w) old hxnn hcmp st h3 hlk
              rcases o12 with h12 | ⟨h12a, h12b⟩ | ⟨_, h12b⟩
              · exact Or.inl (by omega)
              · exact Or.inr (Or.inl ⟨by omega, by omega⟩)
              · exact Or.inr (Or.inl ⟨by rw [h12b, hlen], by rw [h12b]; exact hW⟩)
        · have hstep : relaxAll net tg t path ((nid, w) :: rest) pq st
              = relaxAll net tg t path rest pq st := by
            simp [relaxAll, hg, hlk, hcmp]
          rw [hstep] at heq
          obtain ⟨o1, o2, o3, o4, o5, o6, o7, o8, o10, o11, o12⟩ :=
            ih pq st pq2 st2 (fun p hp => hsub p (List.mem_cons_of_mem _ hp))
              h1 h2 h3 h4 h5 h6 heq
          refine ⟨o1, o2, o3, o4, o5, o6, o7, o8, o10, ?_, o12⟩
          intro nw hnw nbx hresx
          rcases List.mem_cons.mp hnw with rfl | hnw2
          · rw [hg] at hresx
            rcases Option.some.inj hresx with rfl
            obtain ⟨d2, hd2, hle2⟩ := o7 nb old hlk
            exact ⟨d2, hd2, by omega⟩
          · exact o11 nw hnw2 nbx hresx

/-- Lower bound on walk weights from the relaxation invariant: any walk from
the start either ends in a station labelled at most the walk's weight, or
weighs at least the minimum `t0` of the pending queue times. -/
theorem dijk_walk_bound (net : MetroNetwork) (sa : Station) (hnn : net.NonNeg)
    (hsa : sa ∈ net.stations) (pq : List QEntry) (st : List (Station × Int))
    (t0 : Int)
    (hstart : ∃ d, dlookup st sa = some d ∧ d ≤ 0)
    (hrelax : ∀ (z : Station) (d : Int), dlookup st z = some d →
      (∃ en ∈ pq, en.st = z ∧ en.time ≤ d) ∨
      (∀ nw ∈ z.neighbors, ∀ nb : Station, net.getStation nw.1 = some nb →
        ∃ d2, dlookup st nb = some d2 ∧ d2 ≤ d + nw.2))
    (hmin : ∀ en ∈ pq, t0 ≤ en.time) :
    ∀ (n : Nat) (q : List Station) (z : Station) (w : Int),
      q.length = n → Seg net sa q z w →
      (∃ d, dlookup st z = some d ∧ d ≤ w) ∨ t0 ≤ w := by
  intro n
  induction n using Nat.strong_induction_on with
  | _ n ih =>
    intro q z w hlen hseg
    by_cases hq : q = []
    · subst hq
      obtain ⟨rfl, rfl⟩ := Seg_nil_inv hseg
      obtain ⟨d, hd, hd0⟩ := hstart
      exact Or.inl ⟨d, hd, hd0⟩
    · obtain ⟨q1, pr, t1, w1, hqeq, hseg1, hedge, hres, hw⟩ := Seg_snoc_split hseg hq
      have hpr : pr ∈ net.stations := Seg_end_mem hseg1 hsa
      have hw1nn : (0 : Int) ≤ w1 := hnn pr hpr (z.idx, w1) hedge
      have hlt : q1.length < n := by
        subst hlen
        rw [hqeq]
        simp
      rcases ih q1.length hlt q1 pr t1 rfl hseg1 with ⟨d, hd, hdle⟩ | hbound
      · rcases hrelax pr d hd with ⟨en, hen, hst, hent⟩ | hrel
        · refine Or.inr ?_
          have := hmin en hen
          omega
        · obtain ⟨d2, hd2, hd2le⟩ := hrel (z.idx, w1) hedge z hres
          have hc1 : d2 ≤ d + w1 := hd2le
          exact Or.inl ⟨d2, hd2, by omega⟩
      · exact Or.inr (by omega)

/-- One loop iteration when the pop itself raises. -/
theorem frLoop_step_pop_error (net : MetroNetwork) (tg : Station) (x : QEntry)
    (xs : List QEntry) (st : List (Station × Int)) (fuel : Nat) (er : Unit)
    (hpop : heappop entLtE (x :: xs) = Except.error er) :
    frLoop net tg (x :: xs) st (fuel + 1) = some (Except.error er) := by
  simp [frLoop, hpop]

/-- One loop iteration when the popped entry is the target. -/
theorem frLoop_step_pop_target (net : MetroNetwork) (tg : Station) (x : QEntry)
    (xs : List QEntry) (st : List (Station × Int)) (fuel : Nat) (e : QEntry)
    (pq1 : List QEntry)
    (hpop : heappop entLtE (x :: xs) = Except.ok (some (e, pq1)))
    (htgt : e.st = tg) :
    frLoop net tg (x :: xs) st (fuel + 1)
      = some (Except.ok (some (e.path, e.time))) := by
  simp [frLoop, hpop, htgt]

/-- One loop iteration when a push during relaxation raises. -/
theorem frLoop_step_relax_error (net : MetroNetwork) (tg : Station) (x : QEntry)
    (xs : List QEntry) (st : List (Station × Int)) (fuel : Nat) (e : QEntry)
    (pq1 : List QEntry) (er : Unit)
    (hpop : heappop entLtE (x :: xs) = Except.ok (some (e, pq1)))
    (htgt : ¬ e.st = tg)
    (hrel : relaxAll net tg e.time e.path e.st.neighbors pq1 st
      = Except.error er) :
    frLoop net tg (x :: xs) st (fuel + 1) = some (Except.error er) := by
  simp [frLoop, hpop, htgt, hrel]

/-- One full successful loop iteration: pop a non-target entry and relax all
its neighbours. -/
theorem frLoop_step_relax_ok (net : MetroNetwork) (tg : Station) (x : QEntry)
    (xs : List QEntry) (st : List (Station × Int)) (fuel : Nat) (e : QEntry)
    (pq1 pq2 : List QEntry) (st2 : List (Station × Int))
    (hpop : heappop entLtE (x :: xs) = Except.ok (some (e, pq1)))
    (htgt : ¬ e.st = tg)
    (hrel : relaxAll net tg e.time e.path e.st.neighbors pq1 st
      = Except.ok (pq2, st2)) :
    frLoop net tg (x :: xs) st (fuel + 1) = frLoop net tg pq2 st2 fuel := by
  simp [frLoop, hpop, htgt, hrel]

/-- Grand lemma of the weighted search loop on a network with non-negative
edge weights: from any state satisfying `DijkInv` the loop terminates under
some fuel; whenever it returns a result pair the returned total realises a
genuine start-to-target walk and is minimal among all walk weights; and when
the target is reachable it never reports "no path". -/
theorem dijk_main (net : MetroNetwork) (sa tg : Station) (hnn : net.NonNeg)
    (hsa : sa ∈ net.stations) :
    ∀ (μ1 μ2 μ3 : Nat) (pq : List QEntry) (st : List (Station × Int)),
      DijkInv net sa tg pq st →
      net.stations.length - st.length = μ1 → stW st = μ2 → pq.length = μ3 →
      ∃ (fuel : Nat) (res : Except Unit (Option (List Station × Int))),
        frLoop net tg pq st fuel = some res ∧
        (∀ (p : List Station) (t : Int), res = Except.ok (some (p, t)) →
          (∃ q, p = sa :: q ∧ Seg net sa q tg t) ∧
          (∀ (q2 : List Station) (t2 : Int), Seg net sa q2 tg t2 → t ≤ t2)) ∧
        (Reachable net sa tg → res ≠ Except.ok none) := by
  intro μ1
  induction μ1 using Nat.strong_induction_on with
  | _ μ1 ih1 =>
  intro μ2
  induction μ2 using Nat.strong_induction_on with
  | _ μ2 ih2 =>
  intro μ3
  induction μ3 using Nat.strong_induction_on with
  | _ μ3 ih3 =>
  intro pq st hinv hμ1 hμ2 hμ3
  cases pq with
  | nil =>
    refine ⟨1, Except.ok none, rfl, ?_, ?_⟩
    · intro p t h
      exact absurd h (by simp)
    · intro hre
      obtain ⟨q, wt, hseg⟩ := hre
      intro _
      have hlab := dijk_walk_bound net sa hnn hsa [] st (wt + 1)
        hinv.start_lab hinv.relaxed (fun en he => absurd he (by simp))
        q.length q tg wt rfl hseg
      rcases hlab with ⟨d, hd, _⟩ | hge
      · obtain ⟨en, hen, _⟩ := hinv.tg_pending d hd
        exact absurd hen (by simp)
      · omega
  | cons x xs =>
    cases hpop : heappop entLtE (x :: xs) with
    | error er =>
      refine ⟨1, Except.error er, frLoop_step_pop_error net tg x xs st 0 er hpop,
        ?_, ?_⟩
      · intro p t h
        exact absurd h (by simp)
      · intro _
        simp
    | ok popt =>
      cases popt with
      | none => exact absurd hpop (heappop_cons_some entLtE x xs)
      | some pr =>
        obtain ⟨e, pq1⟩ := pr
        have hperm := heappop_perm entLtE (x :: xs) e pq1 hpop
        have hheap1 := heappop_isHeap (x :: xs) e pq1 hinv.heap hpop
        have hmin0 := heappop_min (x :: xs) e pq1 hinv.heap hpop
        have hemem : e ∈ x :: xs := by
          rw [hperm.mem_iff]
          exact List.mem_cons_self _ _
        have hmemt : ∀ en ∈ x :: xs, e.time ≤ en.time :=
          fun en hen => keyLe_time (hmin0 en hen)
        obtain ⟨qe, hqe, hsege⟩ := hinv.q_sound e hemem
        by_cases htgt : e.st = tg
        · refine ⟨1, Except.ok (some (e.path, e.time)),
            frLoop_step_pop_target net tg x xs st 0 e pq1 hpop htgt, ?_, ?_⟩
          · intro p t h
            injection h with h3
            injection h3 with h4
            injection h4 with h5 h6
            subst h5
            subst h6
            constructor
            · refine ⟨qe, hqe, ?_⟩
              rw [← htgt]
              exact hsege
            · intro q2 t2 hseg2
              have hbound := dijk_walk_bound net sa hnn hsa (x :: xs) st e.time
                hinv.start_lab hinv.relaxed hmemt q2.length q2 tg t2 rfl hseg2
              rcases hbound with ⟨d, hd, hdle⟩ | hge
              · obtain ⟨en, hen, henst, hent⟩ := hinv.tg_pending d hd
                have := hmemt en hen
                omega
              · exact hge
          · intro _
            simp
        · cases hrel : relaxAll net tg e.time e.path e.st.neighbors pq1 st with
          | error er =>
            refine ⟨1, Except.error er,
              frLoop_step_relax_error net tg x xs st 0 e pq1 er hpop htgt hrel,
              ?_, ?_⟩
            · intro p t h
              exact absurd h (by simp)
            · intro _
              simp
          | ok pst =>
            obtain ⟨pq2, st2⟩ := pst
            have hq1sound : ∀ en ∈ pq1, ∃ q, en.path = sa :: q ∧
                Seg net sa q en.st en.time := by
              intro en hen
              exact hinv.q_sound en
                (by rw [hperm.mem_iff]; exact List.mem_cons_of_mem _ hen)
            have hlab1 : ∀ en ∈ pq1, ∃ d, dlookup st en.st = some d ∧ d ≤ en.time := by
              intro en hen
              exact hinv.entry_lab en
                (by rw [hperm.mem_iff]; exact List.mem_cons_of_mem _ hen)
            obtain ⟨o1, o2, o3, o4, o5, o6, o7, o8, o10, o11, o12⟩ :=
              relaxAll_effects net sa tg e.st e.time e.path hnn hsa ⟨qe, hqe, hsege⟩
                e.st.neighbors pq1 st pq2 st2 (fun p hp => hp)
                hq1sound hinv.st_sound hinv.st_nodup hinv.st_mem hlab1 hheap1 hrel
            have hinv2 : DijkInv net sa tg pq2 st2 := by
              refine ⟨o1, o2, o3, o4, o5, o6, ?_, ?_, ?_⟩
              · obtain ⟨d, hd, hd0⟩ := hinv.start_lab
                obtain ⟨d2, hd2, hdle⟩ := o7 sa d hd
                exact ⟨d2, hd2, by omega⟩
              · intro z d2 hd2
                rcases o10 z d2 hd2 with hold | ⟨en, hen, henst, hent⟩
                · rcases hinv.relaxed z d2 hold with ⟨en, hen, henst, hent⟩ | hrelz
                  · rw [hperm.mem_iff] at hen
                    rcases List.mem_cons.mp hen with heq | hen1
                    · rw [heq] at henst hent
                      obtain ⟨d3, hd3, hd3le⟩ := hinv.entry_lab e hemem
                      have hz : dlookup st e.st = some d2 := by
                        rw [henst]
                        exact hold
                      rw [hz] at hd3
                      have hd32 : d2 = d3 := Option.some.inj hd3
                      refine Or.inr ?_
                      intro nw hnw nb hresnb
                      obtain ⟨d4, hd4, hd4le⟩ := o11 nw
                        (by rw [henst]; exact hnw) nb hresnb
                      exact ⟨d4, hd4, by omega⟩
                    · exact Or.inl ⟨en, o8 en hen1, henst, hent⟩
                  · refine Or.inr ?_
                    intro nw hnw nb hresnb
                    obtain ⟨d3, hd3, hd3le⟩ := hrelz nw hnw nb hresnb
                    obtain ⟨d4, hd4, hd4le⟩ := o7 nb d3 hd3
                    exact ⟨d4, hd4, by omega⟩
                · exact Or.inl ⟨en, hen, henst, hent⟩
              · intro d2 hd2
                rcases o10 tg d2 hd2 with hold | hpend
                · obtain ⟨en, hen, henst, hent⟩ := hinv.tg_pending d2 hold
                  rw [hperm.mem_iff] at hen
                  rcases List.mem_cons.mp hen with heq | hen1
                  · rw [heq] at henst
                    exact absurd henst htgt
                  · exact ⟨en, o8 en hen1, henst, hent⟩
                · exact hpend
            have hlen1 : (x :: xs).length = pq1.length + 1 := by
              have h := hperm.length_eq
              simpa using h
            have hst2len : st2.length ≤ net.stations.length := by
              have h2 : ∀ y ∈ st2.map Prod.fst, y ∈ net.stations := by
                intro y hy
                obtain ⟨sd, hsd, rfl⟩ := List.mem_map.mp hy
                exact o4 sd hsd
              have h3 := nodup_subset_length o3 h2
              rwa [List.length_map] at h3
            rcases o12 with h12 | ⟨h12a, h12b⟩ | ⟨h12a, h12b⟩
            · obtain ⟨fuel, res, hrun, hres, hne⟩ :=
                ih1 (net.stations.length - st2.length) (by omega) (stW st2)
                  pq2.length pq2 st2 hinv2 rfl rfl rfl
              refine ⟨fuel + 1, res, ?_, hres, hne⟩
              rw [frLoop_step_relax_ok net tg x xs st fuel e pq1 pq2 st2 hpop htgt hrel]
              exact hrun
            · obtain ⟨fuel, res, hrun, hres, hne⟩ :=
                ih2 (stW st2) (by omega) pq2.length pq2 st2 hinv2 (by omega) rfl rfl
              refine ⟨fuel + 1, res, ?_, hres, hne⟩
              rw [frLoop_step_relax_ok net tg x xs st fuel e pq1 pq2 st2 hpop htgt hrel]
              exact hrun
            · rw [h12a, h12b] at hinv2
              obtain ⟨fuel, res, hrun, hres, hne⟩ :=
                ih3 pq1.length (by omega) pq1 st hinv2 hμ1 hμ2 rfl
              refine ⟨fuel + 1, res, ?_, hres, hne⟩
              rw [frLoop_step_relax_ok net tg x xs st fuel e pq1 pq2 st2 hpop htgt hrel,
                h12a, h12b]
              exact hrun

/-- The initial BFS state `queue = [(start, [start])]`, `visited = ∅`
satisfies the loop invariant. -/
theorem bfs_init_inv (net : MetroNetwork) (sa tg : Station) :
    BfsInv net sa tg [] [(sa, [sa])] [] := by
  refine ⟨?_, ?_, ?_, ?_, ?_, ?_, ?_, ?_, ?_, ?_, ?_, ?_⟩
  · intro e he
    rcases List.mem_singleton.mp he with rfl
    exact ⟨[], 0, rfl, Seg.nil sa⟩
  · intro e he hesa
    rcases List.mem_singleton.mp he with rfl
    exact absurd rfl hesa
  · intro e he _
    rcases List.mem_singleton.mp he with rfl
    exact Or.inl rfl
  · simp
  · intro e0 he0 e he
    rcases List.mem_singleton.mp he with rfl
    have he0' : e0 = (sa, [sa]) := by
      have h := Option.mem_def.mp he0
      simp at h
      exact h.symm
    rw [he0']
    exact Nat.le_succ _
  · intro e0 he0 w q2 t2 hseg2 hle
    have he0' : e0 = (sa, [sa]) := by
      have h := Option.mem_def.mp he0
      simp at h
      exact h.symm
    rw [he0'] at hle
    have hl2 : q2.length + 1 ≤ 1 := hle
    have hq2 : q2 = [] := by
      cases q2 with
      | nil => rfl
      | cons y ys => exfalso; simp at hl2
    subst hq2
    obtain ⟨rfl, rfl⟩ := Seg_nil_inv hseg2
    exact Or.inr rfl
  · intro w hw
    rcases hw with hw | hw
    · simp at hw
    · refine Or.inr ⟨[sa], ?_⟩
      rw [hw]
      exact List.mem_singleton.mpr rfl
  · intro u hu
    simp at hu
  · simp
  · intro _
    exact Or.inl ⟨rfl, rfl, rfl⟩
  · exact List.nodup_nil
  · intro v hv
    simp at hv

/-- The initial weighted-search state `pq = [(0, 0, start, [start])]`,
`shortest_time = {start: 0}` satisfies the loop invariant. -/
theorem dijk_init (net : MetroNetwork) (sa tg : Station) (hsa : sa ∈ net.stations) :
    DijkInv net sa tg [⟨0, 0, sa, [sa]⟩] [(sa, 0)] := by
  refine ⟨?_, ?_, ?_, ?_, ?_, ?_, ?_, ?_, ?_⟩
  · intro en hen
    rcases List.mem_singleton.mp hen with rfl
    exact ⟨[], rfl, Seg.nil sa⟩
  · intro z d hd
    by_cases hz : sa = z
    · subst hz
      rw [dlookup_cons_eq [] rfl] at hd
      rcases Option.some.inj hd with rfl
      exact ⟨[], Seg.nil sa⟩
    · rw [dlookup_cons_ne [] hz] at hd
      exact absurd hd (by simp [dlookup])
  · simp
  · intro sd hsd
    rcases List.mem_singleton.mp hsd with rfl
    exact hsa
  · intro en hen
    rcases List.mem_singleton.mp hen with rfl
    exact ⟨0, dlookup_cons_eq [] rfl, le_refl 0⟩
  · intro i h1 h2
    simp at h2
    omega
  · exact ⟨0, dlookup_cons_eq [] rfl, le_refl 0⟩
  · intro z d hd
    by_cases hz : sa = z
    · subst hz
      rw [dlookup_cons_eq [] rfl] at hd
      rcases Option.some.inj hd with rfl
      exact Or.inl ⟨⟨0, 0, sa, [sa]⟩, List.mem_singleton.mpr rfl, rfl, le_refl 0⟩
    · rw [dlookup_cons_ne [] hz] at hd
      exact absurd hd (by simp [dlookup])
  · intro d hd
    by_cases hz : sa = tg
    · refine ⟨⟨0, 0, sa, [sa]⟩, List.mem_singleton.mpr rfl, hz, ?_⟩
      rw [← hz] at hd
      rw [dlookup_cons_eq [] rfl] at hd
      rcases Option.some.inj hd with rfl
      exact le_refl 0
    · rw [dlookup_cons_ne [] hz] at hd
      exact absurd hd (by simp [dlookup])

/-- `find_least_transfers` terminates on every network and every query: some
fuel makes the model loop return (its Python `while queue:` loop finishes). -/
theorem bfs_terminates (net : MetroNetwork) (a b : String) :
    ∃ (fuel : Nat) (r : Option (List Station)),
      net.find_least_transfers a b fuel = some r := by
  cases hga : net.getStation a with
  | none =>
    cases hgb : net.getStation b with
    | none => exact ⟨1, none, by simp [MetroNetwork.find_least_transfers, hga, hgb]⟩
    | some tg => exact ⟨1, none, by simp [MetroNetwork.find_least_transfers, hga, hgb]⟩
  | some sa =>
    cases hgb : net.getStation b with
    | none => exact ⟨1, none, by simp [MetroNetwork.find_least_transfers, hga, hgb]⟩
    | some tg =>
      by_cases htg : tg = sa
      · refine ⟨1, some [sa], ?_⟩
        simp only [MetroNetwork.find_least_transfers, hga, hgb]
        rw [htg]
        exact ltLoop_cons_hit net sa [sa] [] [] 0
      · obtain ⟨fuel, r, hrun, _⟩ := bfs_main net sa tg htg
          net.stations.length 1 [] [(sa, [sa])] [] (bfs_init_inv net sa tg) rfl rfl
        refine ⟨fuel, r, ?_⟩
        simp only [MetroNetwork.find_least_transfers, hga, hgb]
        exact hrun

/-- On a network with non-negative edge weights, `find_fastest_route`
terminates on every query: some fuel makes the model loop return (either a
normal value or the escaped comparison `TypeError`). -/
theorem ffr_terminates (net : MetroNetwork) (a b : String) (hnn : net.NonNeg) :
    ∃ (fuel : Nat) (res : Except Unit (Option (List Station × Int))),
      net.find_fastest_route a b fuel = some res := by
  cases hga : net.getStation a with
  | none =>
    cases hgb : net.getStation b with
    | none =>
      exact ⟨1, Except.ok none, by simp [MetroNetwork.find_fastest_route, hga, hgb]⟩
    | some tg =>
      exact ⟨1, Except.ok none, by simp [MetroNetwork.find_fastest_route, hga, hgb]⟩
  | some sa =>
    cases hgb : net.getStation b with
    | none =>
      exact ⟨1, Except.ok none, by simp [MetroNetwork.find_fastest_route, hga, hgb]⟩
    | some tg =>
      obtain ⟨fuel, res, hrun, _, _⟩ := dijk_main net sa tg hnn (getStation_mem hga).1
        (net.stations.length - 1) (stW [(sa, 0)]) 1 [⟨0, 0, sa, [sa]⟩] [(sa, 0)]
        (dijk_init net sa tg (getStation_mem hga).1) rfl rfl rfl
      refine ⟨fuel, res, ?_⟩
      simp only [MetroNetwork.find_fastest_route, hga, hgb]
      exact hrun

/-- C5, amended: `find_least_transfers` terminates on every network and
query, and `find_fastest_route` terminates on every network whose edge
weights are all non-negative; with a negative weight the weighted search can
run forever (see its counterexample). -/
theorem C5_amended_termination :
    (∀ (net : MetroNetwork) (a b : String),
      ∃ (fuel : Nat) (r : Option (List Station)),
        net.find_least_transfers a b fuel = some r) ∧
    (∀ (net : MetroNetwork) (a b : String), net.NonNeg →
      ∃ (fuel : Nat) (res : Except Unit (Option (List Station × Int))),
        net.find_fastest_route a b fuel = some res) :=
  ⟨bfs_terminates, ffr_terminates⟩

/-- Concrete instantiation of `C5_amended_termination` on `netLine`. -/
theorem C5_amended_termination_witness :
    netLine.NonNeg ∧
    (∃ (fuel : Nat) (r : Option (List Station)),
      netLine.find_least_transfers "A" "C" fuel = some r) ∧
    (∃ (fuel : Nat) (res : Except Unit (Option (List Station × Int))),
      netLine.find_fastest_route "A" "C" fuel = some res) :=
  ⟨by decide, C5_amended_termination.1 netLine "A" "C",
    C5_amended_termination.2 netLine "A" "C" (by decide)⟩

/-! ## From walks to simple paths -/

/-- Composing two walks end to start. -/
theorem Seg_trans {net : MetroNetwork} {b m : Station} {q1 : List Station}
    {t1 : Int} (h1 : Seg net b q1 m t1) :
    ∀ {q2 : List Station} {v : Station} {t2 : Int},
      Seg net m q2 v t2 → Seg net b (q1 ++ q2) v (t1 + t2) := by
  induction h1 with
  | nil b =>
    intro q2 v t2 h2
    simpa using h2
  | @cons b0 c d q0 w v0 he hres hsub ih =>
    intro q2 v t2 h2
    have h3 := Seg.cons he hres (ih h2)
    have he2 : (c :: q0) ++ q2 = c :: (q0 ++ q2) := rfl
    rw [he2, show w + v0 + t2 = w + (v0 + t2) from by omega]
    exact h3

/-- Splitting a walk at a list position. -/
theorem Seg_append_inv {net : MetroNetwork} :
    ∀ (q1 : List Station) {b : Station} {q2 : List Station} {v : Station} {t : Int},
      Seg net b (q1 ++ q2) v t →
      ∃ (m : Station) (t1 t2 : Int),
        Seg net b q1 m t1 ∧ Seg net m q2 v t2 ∧ t = t1 + t2 := by
  intro q1
  induction q1 with
  | nil =>
    intro b q2 v t h
    exact ⟨b, 0, t, Seg.nil b, by simpa using h, by omega⟩
  | cons c q1' ih =>
    intro b q2 v t h
    rw [List.cons_append] at h
    cases h with
    | cons he hres hsub =>
      obtain ⟨m, t1, t2, hs1, hs2, ht⟩ := ih hsub
      rename_i w v0
      exact ⟨m, w + t1, t2, Seg.cons he hres hs1, hs2, by omega⟩

/-- A non-empty walk's node list ends at its endpoint. -/
theorem Seg_getLast {net : MetroNetwork} {b : Station} {q : List Station}
    {v : Station} {t : Int} (h : Seg net b q v t) (hne : q ≠ []) :
    q.getLast? = some v := by
  obtain ⟨q1, pr, t1, w1, hqeq, _, _, _, _⟩ := Seg_snoc_split h hne
  rw [hqeq]
  simp

/-- A list that is not duplicate-free contains an element that re-occurs
later. -/
theorem not_nodup_split {l : List Station} (h : ¬ l.Nodup) :
    ∃ (x : Station) (l1 l2 : List Station), l = l1 ++ x :: l2 ∧ x ∈ l2 := by
  induction l with
  | nil => exact absurd List.nodup_nil h
  | cons y ys ih =>
    by_cases hy : y ∈ ys
    · exact ⟨y, [], ys, rfl, hy⟩
    · have h2 : ¬ ys.Nodup := by
        intro hn
        exact h (List.nodup_cons.mpr ⟨hy, hn⟩)
      obtain ⟨x, l1, l2, heq, hx⟩ := ih h2
      exact ⟨x, y :: l1, l2, by rw [heq]; rfl, hx⟩

/-- Cycle removal on a `NonNeg` network: every walk from the start admits a
simple path (duplicate-free including the start) to the same endpoint of no
greater weight. -/
theorem walk_to_simple (net : MetroNetwork) (sa : Station) (hnn : net.NonNeg)
    (hsa : sa ∈ net.stations) :
    ∀ (n : Nat) (q : List Station) (z : Station) (w : Int),
      q.length = n → Seg net sa q z w →
      ∃ (q2 : List Station) (w2 : Int),
        Seg net sa q2 z w2 ∧ (sa :: q2).Nodup ∧ w2 ≤ w := by
  intro n
  induction n using Nat.strong_induction_on with
  | _ n ih =>
    intro q z w hlen hseg
    by_cases hnd : (sa :: q).Nodup
    · exact ⟨q, w, hseg, hnd, le_refl w⟩
    · by_cases hsaq : sa ∈ q
      · obtain ⟨l1, l2, heq⟩ := List.append_of_mem hsaq
        have heq2 : q = (l1 ++ [sa]) ++ l2 := by
          rw [heq]
          simp
        rw [heq2] at hseg
        obtain ⟨m, t1, t2, hs1, hs2, ht⟩ := Seg_append_inv (l1 ++ [sa]) hseg
        have hm : m = sa := by
          have h1 := Seg_getLast hs1 (by simp)
          rw [List.getLast?_concat] at h1
          exact (Option.some.inj h1).symm
        rw [hm] at hs2
        have ht1 : (0 : Int) ≤ t1 := Seg_nonneg hnn hs1 hsa
        have hl2 : l2.length < n := by
          subst hlen
          rw [heq2]
          simp only [List.length_append, List.length_cons, List.length_nil]
          omega
        obtain ⟨q2, w2, hseg2, hnd2, hle2⟩ := ih l2.length hl2 l2 z t2 rfl hs2
        exact ⟨q2, w2, hseg2, hnd2, by omega⟩
      · have hqnd : ¬ q.Nodup := by
          intro hn
          exact hnd (List.nodup_cons.mpr ⟨hsaq, hn⟩)
        obtain ⟨x, l1, l2, heq, hx⟩ := not_nodup_split hqnd
        obtain ⟨l2a, l2b, heq2⟩ := List.append_of_mem hx
        have heq3 : q = (l1 ++ [x]) ++ ((l2a ++ [x]) ++ l2b) := by
          rw [heq, heq2]
          simp
        rw [heq3] at hseg
        obtain ⟨m1, t1, t2, hs1, hs2, ht⟩ := Seg_append_inv (l1 ++ [x]) hseg
        have hm1 : m1 = x := by
          have h1 := Seg_getLast hs1 (by simp)
          rw [List.getLast?_concat] at h1
          exact (Option.some.inj h1).symm
        rw [hm1] at hs1 hs2
        obtain ⟨m2, t3, t4, hs3, hs4, ht2⟩ := Seg_append_inv (l2a ++ [x]) hs2
        have hm2 : m2 = x := by
          have h1 := Seg_getLast hs3 (by simp)
          rw [List.getLast?_concat] at h1
          exact (Option.some.inj h1).symm
        rw [hm2] at hs4
        have hx_mem : x ∈ net.stations := Seg_end_mem hs1 hsa
        have ht3 : (0 : Int) ≤ t3 := Seg_nonneg hnn hs3 hx_mem
        have hcomp := Seg_trans hs1 hs4
        have hlt : ((l1 ++ [x]) ++ l2b).length < n := by
          subst hlen
          rw [heq3]
          simp only [List.length_append, List.length_cons, List.length_nil]
          omega
        obtain ⟨q2, w2, hseg2, hnd2, hle2⟩ :=
          ih ((l1 ++ [x]) ++ l2b).length hlt ((l1 ++ [x]) ++ l2b) z (t1 + t4) rfl hcomp
        exact ⟨q2, w2, hseg2, hnd2, by omega⟩

/-- C1, amended: on a network with non-negative integer edge weights and
valid stop ids with the target reachable, `find_fastest_route` terminates,
and it either raises the tuple-comparison `TypeError` (possible whenever two
queue entries tie on cumulative weight and heuristic — see the counterexample)
or returns a pair `(path, total)` whose path is a genuine start-to-target
route of weight `total`, and whose `total` is the minimum over all simple
paths from start to target of the sum of the edge weights. -/
theorem C1_amended_min_weight (net : MetroNetwork) (a b : String)
    (sa tg : Station) (hnn : net.NonNeg) (ha : net.getStation a = some sa)
    (hb : net.getStation b = some tg) (hreach : Reachable net sa tg) :
    ∃ (fuel : Nat) (res : Except Unit (Option (List Station × Int))),
      net.find_fastest_route a b fuel = some res ∧
      (res = Except.error () ∨
        ∃ (p : List Station) (t : Int), res = Except.ok (some (p, t)) ∧
          RouteTo net sa tg p t ∧
          IsLeast {t2 : Int | ∃ q2 : List Station,
            Seg net sa q2 tg t2 ∧ (sa :: q2).Nodup} t) := by
  have hsas : sa ∈ net.stations := (getStation_mem ha).1
  obtain ⟨fuel, res, hrun, hres, hne⟩ := dijk_main net sa tg hnn hsas
    (net.stations.length - 1) (stW [(sa, 0)]) 1 [⟨0, 0, sa, [sa]⟩] [(sa, 0)]
    (dijk_init net sa tg hsas) rfl rfl rfl
  refine ⟨fuel, res, ?_, ?_⟩
  · simp only [MetroNetwork.find_fastest_route, ha, hb]
    exact hrun
  · cases res with
    | error er =>
      cases er
      exact Or.inl rfl
    | ok ores =>
      cases ores with
      | none => exact absurd rfl (hne hreach)
      | some prt =>
        obtain ⟨p, t⟩ := prt
        obtain ⟨⟨q, hpq, hseg⟩, hlow⟩ := hres p t rfl
        refine Or.inr ⟨p, t, rfl, ⟨q, hpq, hseg⟩, ?_, ?_⟩
        · obtain ⟨q2, w2, hseg2, hnd2, hle2⟩ := walk_to_simple net sa hnn hsas
            q.length q tg t rfl hseg
          have hge : t ≤ w2 := hlow q2 w2 hseg2
          have hw2 : w2 = t := le_antisymm hle2 hge
          rw [hw2] at hseg2
          exact ⟨q2, hseg2, hnd2⟩
        · rintro t2 ⟨q2, hseg2, _⟩
          exact hlow q2 t2 hseg2

/-- Concrete instantiation of `C1_amended_min_weight` on `netLine`
(`A — B`, weight 1). -/
theorem C1_amended_min_weight_witness :
    netLine.NonNeg ∧ netLine.getStation "A" = some lineA ∧
    netLine.getStation "B" = some lineB ∧ Reachable netLine lineA lineB ∧
    (∃ (fuel : Nat) (res : Except Unit (Option (List Station × Int))),
      netLine.find_fastest_route "A" "B" fuel = some res ∧
      (res = Except.error () ∨
        ∃ (p : List Station) (t : Int), res = Except.ok (some (p, t)) ∧
          RouteTo netLine lineA lineB p t ∧
          IsLeast {t2 : Int | ∃ q2 : List Station,
            Seg netLine lineA q2 lineB t2 ∧ (lineA :: q2).Nodup} t)) := by
  have hre : Reachable netLine lineA lineB :=
    ⟨[lineB], 1 + 0, @Seg.cons netLine lineA lineB lineB [] 1 0
      (by decide) (by decide) (Seg.nil lineB)⟩
  exact ⟨by decide, by decide, by decide, hre,
    C1_amended_min_weight netLine "A" "B" lineA lineB (by decide) (by decide)
      (by decide) hre⟩
